import Mathlib

/-!
Verification of the virtual schema tree subsystem of the Medical-SQL-MCP
server.  The definitions below are a shallow embedding of the TypeScript
sources `src/mcp-server.ts`, `src/mapping.ts` and `src/db.ts`:

* JavaScript truthiness on optional strings (`x || y`) is `jsOr`;
* the read-only SQL gate of the `query_database` tool is `query_database`
  with the regex test `/^\s*select/i` embedded as `isSelectRegexTest`;
* the virtual tree data model (`Column`, `Table`, `PathNode`,
  `VirtualTree`) mirrors the types of `mapping.ts`, with JavaScript
  objects of string keys embedded as insertion-ordered association lists;
* `addPaths` / `organizePostProcess` embed the path-assignment
  post-processing of `organizeTablesIntoPaths`;
* `Json`, `Json.parse` and `jsonStringify` model the JavaScript
  `JSON.parse` / `JSON.stringify(·, null, 2)` builtins used by the
  categorizer and the schema cache;
* `schema_ls` and `get_table_schema` embed the corresponding tool
  handlers of `mcp-server.ts`, and `ensureTree` embeds the tree-owning
  accessor together with its cache interaction.
-/

/-- JavaScript `a || b` on optional strings: `undefined` and the empty
string are falsy. -/
def jsOr (a : Option String) (b : Option String) : Option String :=
  match a with
  | some s => if s = "" then b else some s
  | none => b

/-- JavaScript `a || b` where the fallback is a plain (always defined)
string, as in `tbl.llm_category || 'other'`. -/
def jsOrStr (a : Option String) (b : String) : String :=
  match a with
  | some s => if s = "" then b else s
  | none => b

/-- The character class `\s` of a JavaScript regular expression:
ASCII whitespace, NBSP, the Unicode space separators, the line
separators and the BOM. -/
def isJsSpace (c : Char) : Bool :=
  let n := c.toNat
  n == 0x20 || n == 0x09 || n == 0x0a || n == 0x0b || n == 0x0c || n == 0x0d ||
  n == 0xa0 || n == 0x1680 || (decide (0x2000 ≤ n) && decide (n ≤ 0x200a)) ||
  n == 0x2028 || n == 0x2029 || n == 0x202f || n == 0x205f || n == 0x3000 ||
  n == 0xfeff

/-- The test `/^\s*select/i.test(sql)` from the `query_database` handler
(`mcp-server.ts` line 287): after any leading `\s` characters, the next
six characters must case-insensitively spell `select`. -/
def isSelectRegexTest (sql : String) : Bool :=
  ((sql.data.dropWhile isJsSpace).take 6).map Char.toLower == "select".data

/-- The claim's reading of the gate condition, stated independently of
the regex: the SQL string decomposes into optional leading whitespace,
six characters that case-insensitively spell the keyword `select`, and
an arbitrary remainder. -/
def SpecSelectKeyword (sql : String) : Prop :=
  ∃ w kw rest, sql.data = w ++ kw ++ rest ∧ (∀ c ∈ w, isJsSpace c = true) ∧
    kw.map Char.toLower = "select".data

/-- Protocol-level error codes of the MCP SDK, as used by the handlers. -/
inductive ErrCode where
  | invalidParams
  | invalidRequest
  | internalError
  | methodNotFound
deriving DecidableEq, Repr

/-- Outcome of a `query_database` call: either the statement is rejected
by the read-only gate (a thrown `McpError`, never reaching the execution
layer), or it is forwarded to the execution layer whose answer is
reported. -/
inductive QdOutcome (α : Type) where
  | rejected (code : ErrCode) (msg : String)
  | executed (result : α)
deriving DecidableEq, Repr

/-- The environment flag `ALLOW_NON_SELECT_QUERIES === 'true'`
(`mcp-server.ts` lines 187 and 286). -/
def allowNonSelectOf (env : Option String) : Bool :=
  env == some "true"

/-- The `query_database` tool handler (`mcp-server.ts` lines 282-293):
if writes are not allowed and the regex test fails, throw an
invalid-params `McpError`; otherwise forward the SQL unchanged to the
execution layer `exec`. -/
def query_database {α : Type} (exec : String → α) (allowNonSelect : Bool)
    (sql : String) : QdOutcome α :=
  if !allowNonSelect && !isSelectRegexTest sql then
    .rejected .invalidParams "Only SELECT queries are allowed in read-only mode."
  else
    .executed (exec sql)

theorem toNat_ofNat_valid (n : Nat) (h : n < 55296) : (Char.ofNat n).toNat = n := by
  unfold Char.ofNat
  rw [dif_pos (Or.inl h : Nat.isValidChar n)]
  rfl

theorem toLower_eq_s_cases (c : Char) (h : c.toLower = 's') :
    c = 's' ∨ c = 'S' := by
  by_cases hc : c.toNat ≥ 65 ∧ c.toNat ≤ 90
  · right
    have h' : Char.ofNat (c.toNat + 32) = 's' := by
      unfold Char.toLower at h
      simpa [hc] using h
    have hv : (Char.ofNat (c.toNat + 32)).toNat = 115 := by rw [h']; rfl
    rw [toNat_ofNat_valid (c.toNat + 32) (by omega)] at hv
    have h83 : c.toNat = 83 := by omega
    calc c = Char.ofNat c.toNat := (Char.ofNat_toNat c).symm
    _ = Char.ofNat 83 := by rw [h83]
    _ = 'S' := rfl
  · left
    unfold Char.toLower at h
    simpa [hc] using h

theorem isSelectRegexTest_iff (sql : String) :
    isSelectRegexTest sql = true ↔ SpecSelectKeyword sql := by
  constructor
  · intro h
    refine ⟨sql.data.takeWhile isJsSpace, (sql.data.dropWhile isJsSpace).take 6,
      (sql.data.dropWhile isJsSpace).drop 6, ?_, ?_, ?_⟩
    · rw [List.append_assoc, List.take_append_drop, List.takeWhile_append_dropWhile]
    · intro c hc
      exact List.mem_takeWhile_imp hc
    · unfold isSelectRegexTest at h
      exact beq_iff_eq.mp h
  · rintro ⟨w, kw, rest, hsplit, hws, hkw⟩
    have hkwlen : kw.length = 6 := by
      have := congrArg List.length hkw
      simpa using this
    obtain ⟨c0, kw', hc0⟩ : ∃ c0 kw', kw = c0 :: kw' := by
      cases kw with
      | nil => simp at hkwlen
      | cons a l => exact ⟨a, l, rfl⟩
    have hc0l : c0.toLower = 's' := by
      rw [hc0] at hkw
      simpa using congrArg (fun l => l.headD 'x') hkw
    have hc0ns : isJsSpace c0 = false := by
      rcases toLower_eq_s_cases c0 hc0l with rfl | rfl <;> decide
    have hdrop : sql.data.dropWhile isJsSpace = kw ++ rest := by
      rw [hsplit, List.append_assoc, List.dropWhile_append_of_pos hws, hc0,
        List.cons_append, List.dropWhile_cons_of_neg (by simp [hc0ns]),
        ← List.cons_append]
    unfold isSelectRegexTest
    rw [hdrop, List.take_left' hkwlen]
    exact beq_iff_eq.mpr hkw

/-- C1: with `allowWrites` false, `query_database` forwards the SQL to
the execution layer exactly when it begins (after optional `\s`
whitespace) with the case-insensitive keyword `select`; otherwise it
fails with the invalid-params rejection without invoking the execution
layer; with `allowWrites` true every statement is forwarded. -/
theorem c1_query_gateway_select_gate {α : Type} (exec : String → α) (sql : String) :
    (query_database exec false sql = .executed (exec sql) ↔ SpecSelectKeyword sql)
    ∧ (¬ SpecSelectKeyword sql →
        query_database exec false sql =
          .rejected .invalidParams "Only SELECT queries are allowed in read-only mode.")
    ∧ query_database exec true sql = .executed (exec sql) := by
  refine ⟨?_, ?_, ?_⟩
  · constructor
    · intro h
      by_contra hspec
      have ht : isSelectRegexTest sql = false := by
        cases hv : isSelectRegexTest sql with
        | false => rfl
        | true => exact absurd ((isSelectRegexTest_iff sql).mp hv) hspec
      simp [query_database, ht] at h
    · intro hspec
      have ht := (isSelectRegexTest_iff sql).mpr hspec
      simp [query_database, ht]
  · intro hspec
    have ht : isSelectRegexTest sql = false := by
      cases hv : isSelectRegexTest sql with
      | false => rfl
      | true => exact absurd ((isSelectRegexTest_iff sql).mp hv) hspec
    simp [query_database, ht]
  · simp [query_database]

/-- Witness for C1 at concrete inputs: `"  select 1"` is forwarded,
`"DELETE FROM t"` is rejected under the read-only policy and forwarded
under the permissive policy. -/
theorem c1_query_gateway_select_gate_witness :
    query_database (fun s => s.length) false "  select 1" = .executed 10
    ∧ query_database (fun s => s.length) false "DELETE FROM t" =
        .rejected .invalidParams "Only SELECT queries are allowed in read-only mode."
    ∧ query_database (fun s => s.length) true "DELETE FROM t" = .executed 13 := by
  refine ⟨?_, ?_, ?_⟩
  · exact (c1_query_gateway_select_gate (fun s => s.length) "  select 1").1.mpr
      ((isSelectRegexTest_iff _).mp (by decide))
  · exact (c1_query_gateway_select_gate (fun s => s.length) "DELETE FROM t").2.1
      (fun hs => by
        have := (isSelectRegexTest_iff _).mpr hs
        exact absurd this (by decide))
  · exact (c1_query_gateway_select_gate (fun s => s.length) "DELETE FROM t").2.2

/-- C9: the gateway permits a non-SELECT statement exactly when the
environment value `ALLOW_NON_SELECT_QUERIES` is exactly the string
`"true"`; `"TRUE"`, `"1"` and an unset variable all leave the gate in
read-only mode. -/
theorem c9_allow_non_select_env_flag {α : Type} (exec : String → α)
    (env : Option String) (sql : String) :
    (¬ SpecSelectKeyword sql →
      (query_database exec (allowNonSelectOf env) sql = .executed (exec sql) ↔
        env = some "true"))
    ∧ (env ≠ some "true" → allowNonSelectOf env = false)
    ∧ allowNonSelectOf (some "TRUE") = false
    ∧ allowNonSelectOf (some "1") = false
    ∧ allowNonSelectOf none = false := by
  refine ⟨?_, ?_, by decide, by decide, by decide⟩
  · intro hspec
    have ht : isSelectRegexTest sql = false := by
      cases hv : isSelectRegexTest sql with
      | false => rfl
      | true => exact absurd ((isSelectRegexTest_iff sql).mp hv) hspec
    constructor
    · intro h
      by_contra henv
      have hf : allowNonSelectOf env = false := by
        unfold allowNonSelectOf
        exact beq_eq_false_iff_ne.mpr henv
      simp [query_database, hf, ht] at h
    · intro henv
      have hv : allowNonSelectOf env = true := by
        unfold allowNonSelectOf
        rw [henv]
        rfl
      simp [query_database, hv]
  · intro henv
    unfold allowNonSelectOf
    exact beq_eq_false_iff_ne.mpr henv

/-- Witness for C9: with `ALLOW_NON_SELECT_QUERIES=true` a DELETE runs;
with it unset the flag is read-only. -/
theorem c9_allow_non_select_env_flag_witness :
    query_database (fun s => s.length) (allowNonSelectOf (some "true")) "DELETE FROM t" =
      .executed 13
    ∧ allowNonSelectOf none = false := by
  constructor
  · exact ((c9_allow_non_select_env_flag (fun s => s.length) (some "true") "DELETE FROM t").1
      (fun hs => by
        have := (isSelectRegexTest_iff _).mpr hs
        exact absurd this (by decide))).mpr rfl
  · exact (c9_allow_non_select_env_flag (fun s => s.length) none "x").2.2.2.2

/-- A column as introspected from the catalog (`mapping.ts` line 4). -/
structure Column where
  name : String
  data_type : String
  key : String
deriving DecidableEq, Repr

/-- A table as introspected and optionally annotated by the classifier
(`mapping.ts` line 5). -/
structure Table where
  name : String
  comment : Option String
  columns : List Column
  llm_category : Option String
  llm_description : Option String
deriving DecidableEq, Repr

/-- A node of the virtual file-system tree (`mapping.ts` lines 7-14).
`type` is the string tag `"directory"` or `"file"` exactly as the
TypeScript union is represented at runtime; `children` distinguishes an
absent field from a present empty list. -/
inductive PathNode where
  | mk (name : String) (path : String) (type : String)
       (children : Option (List PathNode))
       (tableName : Option String) (description : Option String)

def PathNode.name : PathNode → String
  | .mk n _ _ _ _ _ => n

def PathNode.path : PathNode → String
  | .mk _ p _ _ _ _ => p

def PathNode.type : PathNode → String
  | .mk _ _ t _ _ _ => t

def PathNode.children : PathNode → Option (List PathNode)
  | .mk _ _ _ cs _ _ => cs

def PathNode.tableName : PathNode → Option String
  | .mk _ _ _ _ tn _ => tn

def PathNode.description : PathNode → Option String
  | .mk _ _ _ _ _ d => d

/-- The children of a node as a plain list (absent treated as empty). -/
def childrenListOf (n : PathNode) : List PathNode :=
  match n.children with
  | none => []
  | some l => l

mutual

/-- The recursive `addPaths` post-processing of `organizeTablesIntoPaths`
(`mapping.ts` lines 108-115): assign
`node.path = parentPath === '/' ? (node.name === '/' ? '/' : '/'+node.name) : parentPath+'/'+node.name`
and recurse into the children with the freshly computed path. -/
def addPaths (parentPath : String) : PathNode → PathNode
  | .mk n _ t cs tn d =>
    let newPath := if parentPath = "/" then (if n = "/" then "/" else "/" ++ n)
                   else parentPath ++ "/" ++ n
    .mk n newPath t (addPathsChildren newPath cs) tn d

def addPathsChildren (pp : String) : Option (List PathNode) → Option (List PathNode)
  | none => none
  | some l => some (addPathsList pp l)

def addPathsList (pp : String) : List PathNode → List PathNode
  | [] => []
  | c :: cs => addPaths pp c :: addPathsList pp cs

end

/-- The root-path fix of `organizeTablesIntoPaths` (`mapping.ts`
line 119): `root.path = '/'`. -/
def fixRootPath : PathNode → PathNode
  | .mk n _ t cs tn d => .mk n "/" t cs tn d

/-- The whole path-assignment post-process applied to the raw tree the
organizer returned (`mapping.ts` lines 117-119): `addPaths(root, '/')`
followed by forcing the root path to `"/"`. -/
def organizePostProcess (raw : PathNode) : PathNode :=
  fixRootPath (addPaths "/" raw)

/-- The `/`-joined concatenation of the given node names, prefixed by the
root `"/"`: the path the specification's invariant predicts for a node
whose chain of ancestors below the root (itself included) is `ns`. -/
def joinNames (ns : List String) : String :=
  ns.foldl (fun a x => a ++ "/" ++ x) ""

def specPathOf (ns : List String) : String :=
  if ns = [] then "/" else joinNames ns

mutual

/-- Check of the specified path invariant over a whole tree: the node
reached from the root along names `ns` (root itself: `ns = []`) carries
path `specPathOf ns`. -/
def pathsOkNode (ns : List String) : PathNode → Bool
  | .mk _ p _ cs _ _ => (p == specPathOf ns) && pathsOkChildren ns cs

def pathsOkChildren (ns : List String) : Option (List PathNode) → Bool
  | none => true
  | some l => pathsOkList ns l

def pathsOkList (ns : List String) : List PathNode → Bool
  | [] => true
  | c :: cs => pathsOkNode (ns ++ [c.name]) c && pathsOkList ns cs

end

theorem addPaths_name (pp : String) (n : PathNode) : (addPaths pp n).name = n.name := by
  cases n with
  | mk nm p t cs tn d => rfl

mutual

theorem addPaths_addPaths (pp q : String) (n : PathNode) :
    addPaths pp (addPaths q n) = addPaths pp n := by
  cases n with
  | mk nm p t cs tn d =>
    simp only [addPaths]
    exact congrArg (fun x => PathNode.mk nm _ t x tn d)
      (addPathsChildren_addPaths _ _ cs)

theorem addPathsChildren_addPaths (pp q : String) (cs : Option (List PathNode)) :
    addPathsChildren pp (addPathsChildren q cs) = addPathsChildren pp cs := by
  cases cs with
  | none => rfl
  | some l =>
    simp only [addPathsChildren]
    exact congrArg some (addPathsList_addPaths pp q l)

theorem addPathsList_addPaths (pp q : String) (l : List PathNode) :
    addPathsList pp (addPathsList q l) = addPathsList pp l := by
  cases l with
  | nil => rfl
  | cons c cs =>
    simp only [addPathsList]
    rw [addPaths_addPaths pp q c, addPathsList_addPaths pp q cs]

end

theorem addPaths_fixRootPath (pp : String) (n : PathNode) :
    addPaths pp (fixRootPath n) = addPaths pp n := by
  cases n with
  | mk nm p t cs tn d => rfl

/-- C8: the path-assignment post-process of `organizeTablesIntoPaths` is
idempotent: applying it twice to any raw organizer tree yields exactly
the tree obtained by applying it once (in particular the same `path` on
every node), because each run recomputes every path top-down from `"/"`
without reading prior path values. -/
theorem c8_path_assignment_idempotent (raw : PathNode) :
    organizePostProcess (organizePostProcess raw) = organizePostProcess raw := by
  unfold organizePostProcess
  rw [addPaths_fixRootPath, addPaths_addPaths]

theorem foldl_slash_length (ns : List String) (init : String) :
    init.length ≤ (List.foldl (fun a x => a ++ "/" ++ x) init ns).length := by
  induction ns generalizing init with
  | nil => simp
  | cons x rest ih =>
    simp only [List.foldl_cons]
    calc init.length ≤ (init ++ "/" ++ x).length := by
          have h1 : ("/" : String).length = 1 := rfl
          simp only [String.length_append, h1]
          omega
    _ ≤ _ := ih (init ++ "/" ++ x)

theorem joinNames_length_pos (ns : List String) (h : ns ≠ []) :
    1 ≤ (joinNames ns).length := by
  cases ns with
  | nil => exact absurd rfl h
  | cons x rest =>
    unfold joinNames
    simp only [List.foldl_cons]
    calc 1 ≤ ("" ++ "/" ++ x).length := by
          have h1 : ("/" : String).length = 1 := rfl
          have h0 : ("" : String).length = 0 := rfl
          simp only [String.length_append, h1, h0]
          omega
    _ ≤ _ := foldl_slash_length rest _

theorem specPathOf_append (ns : List String) (x : String) (h : ns ≠ []) :
    specPathOf (ns ++ [x]) = specPathOf ns ++ "/" ++ x := by
  unfold specPathOf joinNames
  rw [if_neg (by simp), if_neg h, List.foldl_append]
  rfl

theorem specPathOf_append_ne_slash (ns : List String) (x : String) (h : ns ≠ []) :
    specPathOf (ns ++ [x]) ≠ "/" := by
  rw [specPathOf_append ns x h]
  intro hc
  have hlen := congrArg String.length hc
  rw [String.length_append, String.length_append] at hlen
  have h1 : 1 ≤ (specPathOf ns).length := by
    unfold specPathOf
    rw [if_neg h]
    exact joinNames_length_pos ns h
  have h2 : ("/" : String).length = 1 := rfl
  rw [h2] at hlen
  have : ("/" : String).length = 1 := rfl
  omega

mutual

theorem pathsOk_addPaths_node (n : PathNode) (ns : List String) (hne : ns ≠ [])
    (hpp : specPathOf ns ≠ "/") :
    pathsOkNode (ns ++ [n.name]) (addPaths (specPathOf ns) n) = true := by
  cases n with
  | mk nm p t cs tn d =>
    simp only [addPaths, if_neg hpp, PathNode.name, pathsOkNode]
    rw [← specPathOf_append ns nm hne, Bool.and_eq_true]
    refine ⟨beq_self_eq_true _, ?_⟩
    exact pathsOk_addPaths_children cs (ns ++ [nm]) (by simp)
      (specPathOf_append_ne_slash ns nm hne)

theorem pathsOk_addPaths_children (cs : Option (List PathNode)) (ns : List String)
    (hne : ns ≠ []) (hpp : specPathOf ns ≠ "/") :
    pathsOkChildren ns (addPathsChildren (specPathOf ns) cs) = true := by
  cases cs with
  | none => rfl
  | some l =>
    simp only [addPathsChildren, pathsOkChildren]
    exact pathsOk_addPaths_list l ns hne hpp

theorem pathsOk_addPaths_list (l : List PathNode) (ns : List String)
    (hne : ns ≠ []) (hpp : specPathOf ns ≠ "/") :
    pathsOkList ns (addPathsList (specPathOf ns) l) = true := by
  cases l with
  | nil => rfl
  | cons c rest =>
    simp only [addPathsList, pathsOkList, addPaths_name]
    rw [Bool.and_eq_true]
    refine ⟨?_, pathsOk_addPaths_list rest ns hne hpp⟩
    exact pathsOk_addPaths_node c ns hne hpp

end

theorem string_data_inj {a b : String} (h : a.data = b.data) : a = b := by
  cases a
  cases b
  exact congrArg String.mk h

theorem slash_append_ne_slash (x : String) (h : x ≠ "") : ("/" ++ x) ≠ "/" := by
  intro hc
  have hd : ('/' :: x.data) = ['/'] := congrArg String.data hc
  have hx : x.data = [] := by simpa using hd
  exact h (string_data_inj hx)

theorem specPathOf_singleton (x : String) : specPathOf [x] = "/" ++ x := by
  unfold specPathOf joinNames
  rw [if_neg (by simp)]
  rfl

theorem pathsOk_addPaths_depth1 (c : PathNode) (h1 : c.name ≠ "/") (h2 : c.name ≠ "") :
    pathsOkNode [c.name] (addPaths "/" c) = true := by
  cases c with
  | mk nm p t cs tn d =>
    simp only [PathNode.name] at h1 h2
    simp only [addPaths, if_pos rfl, if_neg h1, pathsOkNode]
    rw [Bool.and_eq_true]
    constructor
    · rw [specPathOf_singleton]
      exact beq_self_eq_true _
    · have heq : ("/" ++ nm) = specPathOf [nm] := (specPathOf_singleton nm).symm
      rw [heq]
      refine pathsOk_addPaths_children cs [nm] (by simp) ?_
      rw [specPathOf_singleton]
      exact slash_append_ne_slash nm h2

theorem pathsOk_addPaths_list_depth1 (l : List PathNode)
    (h : ∀ c ∈ l, c.name ≠ "/" ∧ c.name ≠ "") :
    pathsOkList [] (addPathsList "/" l) = true := by
  induction l with
  | nil => rfl
  | cons c rest ih =>
    simp only [addPathsList, pathsOkList, addPaths_name, List.nil_append]
    rw [Bool.and_eq_true]
    exact ⟨pathsOk_addPaths_depth1 c (h c (by simp)).1 (h c (by simp)).2,
      ih (fun x hx => h x (by simp [hx]))⟩

/-- C3 (amended): after the path-assignment post-process, the root's
path is exactly `"/"` whatever name or path the organizer supplied; and
provided the organizer named the root `"/"` and no immediate child of
the root is named `"/"` or the empty string, every node's path is the
`/`-joined concatenation of the node names on the way down from the
root. -/
theorem c3_path_invariant_amended :
    (∀ raw, (organizePostProcess raw).path = "/")
    ∧ (∀ raw, raw.name = "/" →
        (∀ c ∈ childrenListOf raw, c.name ≠ "/" ∧ c.name ≠ "") →
        pathsOkNode [] (organizePostProcess raw) = true) := by
  constructor
  · intro raw
    cases raw with
    | mk nm p t cs tn d => rfl
  · intro raw hname hch
    cases raw with
    | mk nm p t cs tn d =>
      simp only [PathNode.name] at hname
      subst hname
      simp only [organizePostProcess, addPaths, if_pos rfl, fixRootPath, pathsOkNode]
      rw [Bool.and_eq_true]
      constructor
      · rfl
      · cases cs with
        | none => rfl
        | some l =>
          simp only [addPathsChildren, pathsOkChildren]
          apply pathsOk_addPaths_list_depth1
          intro c hc
          exact hch c (by simpa [childrenListOf, PathNode.children] using hc)

/-- A raw organizer tree whose root has an immediate child named `"/"`. -/
def c3CexChildSlash : PathNode :=
  .mk "/" "" "directory"
    (some [.mk "/" "" "directory"
      (some [.mk "t" "" "file" none (some "t") none]) none none])
    none none

/-- A raw organizer tree whose root has an immediate child named `""`
with a grandchild. -/
def c3CexEmptyName : PathNode :=
  .mk "/" "" "directory"
    (some [.mk "" "" "directory"
      (some [.mk "x" "" "file" none none none]) none none])
    none none

/-- A raw organizer tree whose root is not named `"/"`. -/
def c3CexRootName : PathNode :=
  .mk "X" "" "directory" (some [.mk "c" "" "file" none none none]) none none

/-- Counterexample to C3 as stated: on these organizer outputs the code
assigns some node a path different from the `/`-joined concatenation of
ancestor names from the root.  A depth-1 child named `"/"` receives path
`"/"` instead of `"//"`; the grandchild of a depth-1 child named `""`
receives `"/x"` instead of `"//x"`; under a root named `"X"` the child
receives `"/X/c"` instead of `"/c"` even though the root's own path is
forced to `"/"`. -/
theorem c3_path_invariant_counterexample :
    pathsOkNode [] (organizePostProcess c3CexChildSlash) = false
    ∧ pathsOkNode [] (organizePostProcess c3CexEmptyName) = false
    ∧ pathsOkNode [] (organizePostProcess c3CexRootName) = false
    ∧ (organizePostProcess c3CexRootName).path = "/" := by
  refine ⟨by decide, by decide, by decide, by decide⟩

/-- Witness for the amended C3 at a concrete well-formed organizer
output. -/
def c3WitnessRaw : PathNode :=
  .mk "/" "junk" "directory"
    (some [.mk "a" "junk" "directory"
      (some [.mk "b" "" "file" none (some "tb") none]) none none])
    none none

theorem c3_path_invariant_amended_witness :
    c3WitnessRaw.name = "/"
    ∧ (∀ c ∈ childrenListOf c3WitnessRaw, c.name ≠ "/" ∧ c.name ≠ "")
    ∧ pathsOkNode [] (organizePostProcess c3WitnessRaw) = true
    ∧ (organizePostProcess c3WitnessRaw).path = "/" := by
  refine ⟨rfl, by decide, ?_, ?_⟩
  · exact c3_path_invariant_amended.2 c3WitnessRaw rfl (by decide)
  · exact c3_path_invariant_amended.1 c3WitnessRaw

/-- The assembled virtual tree (`mapping.ts` lines 16-21).  JavaScript
objects keyed by strings (`categories`, `tables`) are embedded as
insertion-ordered association lists with unique keys. -/
structure VirtualTree where
  database : String
  categories : List (String × List Table)
  tables : List (String × Table)
  root : Option PathNode

/-- Errors thrown by the `schema_ls` handler: the internal-error
`Virtual file system not initialized`, the invalid-params
`Path not found: <path>` (children absent mid-descent) and the
invalid-params `Path segment '<part>' not found in '<parent>'`. -/
inductive LsError where
  | notInitialized
  | pathNotFound (requested : String)
  | segmentNotFound (part : String) (parentPath : String)
deriving DecidableEq, Repr

/-- One element of a `schema_ls` listing. -/
structure LsEntry where
  name : String
  type : String
  path : String
  tableName : Option String
  description : Option String
deriving DecidableEq, Repr

/-- The normalization `path.replace(/^\/+|\/+$/g, '')`: strip the
leading run and the trailing run of slashes. -/
def stripSlashes (s : String) : String :=
  String.mk (((s.data.dropWhile (· == '/')).reverse.dropWhile (· == '/')).reverse)

def splitOnCharAux (sep : Char) : List Char → List Char → List (List Char)
  | acc, [] => [acc.reverse]
  | acc, c :: rest =>
    if c = sep then acc.reverse :: splitOnCharAux sep [] rest
    else splitOnCharAux sep (c :: acc) rest

/-- JavaScript `String.prototype.split` with a single-character
separator. -/
def splitOnChar (sep : Char) (cs : List Char) : List String :=
  (splitOnCharAux sep [] cs).map String.mk

/-- The list of path segments the handler iterates over: empty when the
normalized path is empty, otherwise `cleanPath.split('/')`
(`mcp-server.ts` lines 394-404). -/
def pathParts (reqPath : String) : List String :=
  if stripSlashes reqPath = "" then [] else splitOnChar '/' (stripSlashes reqPath).data

/-- The descent loop of the `schema_ls` handler (`mcp-server.ts` lines
401-415): for each segment, fail if the current node has no `children`
field, then look the segment up among the children by name. -/
def descend (requested : String) : PathNode → List String → Except LsError PathNode
  | n, [] => .ok n
  | n, part :: rest =>
    match n.children with
    | none => .error (.pathNotFound requested)
    | some cs =>
      match cs.find? (fun c => c.name == part) with
      | none => .error (.segmentNotFound part n.path)
      | some c => descend requested c rest

/-- The error value the descent loop throws (meaningful only when the
descent does fail). -/
def descendError (requested : String) : PathNode → List String → LsError
  | _, [] => .notInitialized
  | n, part :: rest =>
    match n.children with
    | none => .pathNotFound requested
    | some cs =>
      match cs.find? (fun c => c.name == part) with
      | none => .segmentNotFound part n.path
      | some c => descendError requested c rest

/-- Specification-side reading of a navigation miss: some request
segment does not match any child name at its level (in particular when
the node reached has no children at all). -/
def missesAt : PathNode → List String → Bool
  | _, [] => false
  | n, part :: rest =>
    match n.children with
    | none => true
    | some cs =>
      match cs.find? (fun c => c.name == part) with
      | none => true
      | some c => missesAt c rest

/-- Whether an `LsError` names the offending segment (one of the request
segments) or the requested path itself. -/
def errorNamesOffending (ps : List String) (req : String) : LsError → Prop
  | .notInitialized => False
  | .pathNotFound r => r = req
  | .segmentNotFound part _ => part ∈ ps

/-- One listing entry for a child of a directory node (`mcp-server.ts`
lines 418-424), with the JavaScript `||` fallback for the description:
`c.description || (c.tableName ? tree.tables[c.tableName]?.llm_description : undefined)`. -/
def lsDirEntry (tree : VirtualTree) (c : PathNode) : LsEntry :=
  { name := c.name, type := c.type, path := c.path, tableName := c.tableName,
    description := jsOr c.description
      (match c.tableName with
       | some tn =>
         if tn = "" then none
         else
           match tree.tables.lookup tn with
           | some t => t.llm_description
           | none => none
       | none => none) }

/-- The single-element listing returned when the resolved node is a file
(`mcp-server.ts` lines 427-433). -/
def lsFileEntry (c : PathNode) : LsEntry :=
  { name := c.name, type := "file", path := c.path, tableName := c.tableName,
    description := c.description }

/-- The `schema_ls` tool handler (`mcp-server.ts` lines 385-448). -/
def schema_ls (tree : VirtualTree) (reqPath : String) : Except LsError (List LsEntry) :=
  match tree.root with
  | none => .error .notInitialized
  | some root =>
    match descend reqPath root (pathParts reqPath) with
    | .error e => .error e
    | .ok n =>
      if n.type = "directory" then
        .ok ((childrenListOf n).map (lsDirEntry tree))
      else
        .ok [lsFileEntry n]

/-- Errors thrown by the `get_table_schema` handler. -/
inductive TsError where
  | tableNotFound (tableName : String)
deriving DecidableEq, Repr

/-- One column of a `get_table_schema` listing (`mcp-server.ts` lines
463-467). -/
structure SchemaColEntry where
  name : String
  type : String
  dataType : String
deriving DecidableEq, Repr

/-- The `get_table_schema` tool handler (`mcp-server.ts` lines
451-474). -/
def get_table_schema (tree : VirtualTree) (tableName : String) :
    Except TsError (List SchemaColEntry) :=
  match tree.tables.lookup tableName with
  | none => .error (.tableNotFound tableName)
  | some t =>
    .ok (t.columns.map (fun c =>
      { name := c.name, type := "column", dataType := c.data_type }))

theorem schema_ls_eq_of_root (tree : VirtualTree) (r : PathNode) (p : String)
    (h : tree.root = some r) :
    schema_ls tree p =
      match descend p r (pathParts p) with
      | .error e => .error e
      | .ok n =>
        if n.type = "directory"
        then .ok ((childrenListOf n).map (lsDirEntry tree))
        else .ok [lsFileEntry n] := by
  unfold schema_ls
  rw [h]

theorem descend_of_missesAt (req : String) (ps : List String) (n : PathNode)
    (h : missesAt n ps = true) :
    descend req n ps = .error (descendError req n ps)
    ∧ errorNamesOffending ps req (descendError req n ps) := by
  induction ps generalizing n with
  | nil => simp [missesAt] at h
  | cons part rest ih =>
    cases n with
    | mk nm p t cs tn d =>
      cases cs with
      | none =>
        exact ⟨rfl, rfl⟩
      | some l =>
        simp only [missesAt, PathNode.children] at h
        simp only [descend, descendError, PathNode.children]
        cases hf : l.find? (fun c => c.name == part) with
        | none =>
          refine ⟨rfl, ?_⟩
          simp [errorNamesOffending]
        | some c =>
          rw [hf] at h
          have hrec := ih c h
          refine ⟨hrec.1, ?_⟩
          show errorNamesOffending (part :: rest) req (descendError req c rest)
          cases he : descendError req c rest with
          | notInitialized =>
            rw [he] at hrec
            exact hrec.2.elim
          | pathNotFound r =>
            rw [he] at hrec
            exact hrec.2
          | segmentNotFound sp spp =>
            rw [he] at hrec
            simp only [errorNamesOffending] at hrec ⊢
            exact List.mem_cons_of_mem _ hrec.2

/-- C6: if the tree has a root and some request segment does not match
any child name at its level, `schema_ls` fails with the path-not-found
error thrown by the descent loop — an error naming the offending segment
or the requested path — and never returns a (partial or empty) success
listing. -/
theorem c6_schema_ls_path_not_found (tree : VirtualTree) (root : PathNode)
    (reqPath : String) (hroot : tree.root = some root)
    (hmiss : missesAt root (pathParts reqPath) = true) :
    schema_ls tree reqPath =
      .error (descendError reqPath root (pathParts reqPath))
    ∧ errorNamesOffending (pathParts reqPath) reqPath
        (descendError reqPath root (pathParts reqPath))
    ∧ descendError reqPath root (pathParts reqPath) ≠ .notInitialized := by
  have h := descend_of_missesAt reqPath (pathParts reqPath) root hmiss
  refine ⟨?_, h.2, ?_⟩
  · rw [schema_ls_eq_of_root tree root reqPath hroot, h.1]
  · intro hc
    rw [hc] at h
    exact h.2.elim

/-- A small concrete tree with a root for the navigation witnesses. -/
def c6WitnessTree : VirtualTree :=
  { database := "db", categories := [], tables := [],
    root := some (.mk "/" "/" "directory"
      (some [.mk "a" "/a" "directory" (some []) none none]) none none) }

theorem c6_schema_ls_path_not_found_witness :
    missesAt (PathNode.mk "/" "/" "directory"
      (some [.mk "a" "/a" "directory" (some []) none none]) none none)
      (pathParts "/b") = true
    ∧ schema_ls c6WitnessTree "/b" =
        .error (.segmentNotFound "b" "/")
    ∧ errorNamesOffending (pathParts "/b") "/b" (.segmentNotFound "b" "/") := by
  refine ⟨by decide, ?_, ?_⟩
  · have h := c6_schema_ls_path_not_found c6WitnessTree
      (.mk "/" "/" "directory"
        (some [.mk "a" "/a" "directory" (some []) none none]) none none)
      "/b" rfl (by decide)
    have he : descendError "/b"
        (PathNode.mk "/" "/" "directory"
          (some [.mk "a" "/a" "directory" (some []) none none]) none none)
        (pathParts "/b") = .segmentNotFound "b" "/" := by decide
    rw [he] at h
    exact h.1
  · show "b" ∈ pathParts "/b"
    decide

theorem descend_append (req : String) (xs ys : List String) (n : PathNode) :
    descend req n (xs ++ ys) =
      match descend req n xs with
      | .ok m => descend req m ys
      | .error e => .error e := by
  induction xs generalizing n with
  | nil => rfl
  | cons part rest ih =>
    cases n with
    | mk nm p t cs tn d =>
      cases cs with
      | none => rfl
      | some l =>
        simp only [List.cons_append, descend, PathNode.children]
        cases hf : l.find? (fun c => c.name == part) with
        | none => rfl
        | some c => exact ih c

/-- C10: with a root present, if path resolution ends at a directory
node whose `children` field is absent or an empty list, `schema_ls`
succeeds with an empty listing; whereas a node lacking the `children`
field that is reached with request segments still remaining makes the
request fail with the `Path not found` error. -/
theorem c10_schema_ls_childless_directory (tree : VirtualTree) (root : PathNode)
    (reqPath : String) (hroot : tree.root = some root) :
    (∀ n, descend reqPath root (pathParts reqPath) = .ok n →
      n.type = "directory" → (n.children = none ∨ n.children = some []) →
      schema_ls tree reqPath = .ok [])
    ∧ (∀ xs part ys n, pathParts reqPath = xs ++ part :: ys →
        descend reqPath root xs = .ok n → n.children = none →
        schema_ls tree reqPath = .error (.pathNotFound reqPath)) := by
  constructor
  · intro n hdesc htype hch
    rw [schema_ls_eq_of_root tree root reqPath hroot, hdesc]
    show (if n.type = "directory"
      then Except.ok ((childrenListOf n).map (lsDirEntry tree))
      else Except.ok [lsFileEntry n]) = Except.ok []
    rw [if_pos htype]
    rcases hch with hc | hc <;> simp [childrenListOf, hc]
  · intro xs part ys n hsplit hdesc hch
    rw [schema_ls_eq_of_root tree root reqPath hroot, hsplit, descend_append, hdesc]
    cases n with
    | mk nm p t cs tn d =>
      simp only [PathNode.children] at hch
      subst hch
      rfl

/-- A concrete tree for the C10 witness: directory `a` has no `children`
field, directory `b` has an empty one. -/
def c10WitnessTree : VirtualTree :=
  { database := "db", categories := [], tables := [],
    root := some (.mk "/" "/" "directory"
      (some [.mk "a" "/a" "directory" none none none,
             .mk "b" "/b" "directory" (some []) none none]) none none) }

theorem c10_schema_ls_childless_directory_witness :
    schema_ls c10WitnessTree "/a" = .ok []
    ∧ schema_ls c10WitnessTree "/b" = .ok []
    ∧ schema_ls c10WitnessTree "/a/x" = .error (.pathNotFound "/a/x") := by
  refine ⟨?_, ?_, ?_⟩
  · exact (c10_schema_ls_childless_directory c10WitnessTree
      (.mk "/" "/" "directory"
        (some [.mk "a" "/a" "directory" none none none,
               .mk "b" "/b" "directory" (some []) none none]) none none)
      "/a" rfl).1 (.mk "a" "/a" "directory" none none none) rfl rfl (Or.inl rfl)
  · exact (c10_schema_ls_childless_directory c10WitnessTree
      (.mk "/" "/" "directory"
        (some [.mk "a" "/a" "directory" none none none,
               .mk "b" "/b" "directory" (some []) none none]) none none)
      "/b" rfl).1 (.mk "b" "/b" "directory" (some []) none none) rfl rfl (Or.inr rfl)
  · exact (c10_schema_ls_childless_directory c10WitnessTree
      (.mk "/" "/" "directory"
        (some [.mk "a" "/a" "directory" none none none,
               .mk "b" "/b" "directory" (some []) none none]) none none)
      "/a/x" rfl).2 ["a"] "x" [] (.mk "a" "/a" "directory" none none none) rfl rfl rfl

/-- JSON values as produced by `JSON.parse`: numbers are kept as their
source lexeme (the tree data of this system contains no numbers, so no
numeric interpretation is needed). -/
inductive Json where
  | null
  | bool (b : Bool)
  | num (lit : String)
  | str (s : String)
  | arr (elems : List Json)
  | obj (fields : List (String × Json))

/-- The insignificant-whitespace characters of JSON. -/
def isJsonWs (c : Char) : Bool :=
  ([' ', '\t', '\n', '\r'] : List Char).contains c

def skipWs (cs : List Char) : List Char := cs.dropWhile isJsonWs

def hexDigitVal (c : Char) : Option Nat :=
  if '0' ≤ c ∧ c ≤ '9' then some (c.toNat - 48)
  else if 'a' ≤ c ∧ c ≤ 'f' then some (c.toNat - 87)
  else if 'A' ≤ c ∧ c ≤ 'F' then some (c.toNat - 55)
  else none

/-- Scan the body of a JSON string literal (after the opening quote)
until the closing quote, decoding the escape sequences.  A `\u` escape
denoting a surrogate code unit is rejected (the strings of this model
are sequences of Unicode scalar values). -/
def parseStrBody : List Char → Option (List Char × List Char)
  | [] => none
  | c :: rest =>
    if c = '"' then some ([], rest)
    else if c = '\\' then
      match rest with
      | [] => none
      | e :: rest2 =>
        if e = '"' then (parseStrBody rest2).map (fun p => ('"' :: p.1, p.2))
        else if e = '\\' then (parseStrBody rest2).map (fun p => ('\\' :: p.1, p.2))
        else if e = '/' then (parseStrBody rest2).map (fun p => ('/' :: p.1, p.2))
        else if e = 'b' then (parseStrBody rest2).map (fun p => (Char.ofNat 8 :: p.1, p.2))
        else if e = 'f' then (parseStrBody rest2).map (fun p => (Char.ofNat 12 :: p.1, p.2))
        else if e = 'n' then (parseStrBody rest2).map (fun p => (Char.ofNat 10 :: p.1, p.2))
        else if e = 'r' then (parseStrBody rest2).map (fun p => (Char.ofNat 13 :: p.1, p.2))
        else if e = 't' then (parseStrBody rest2).map (fun p => (Char.ofNat 9 :: p.1, p.2))
        else if e = 'u' then
          match rest2 with
          | h1 :: h2 :: h3 :: h4 :: rest3 =>
            match hexDigitVal h1, hexDigitVal h2, hexDigitVal h3, hexDigitVal h4 with
            | some v1, some v2, some v3, some v4 =>
              let v := ((v1 * 16 + v2) * 16 + v3) * 16 + v4
              if v < 0xd800 ∨ 0xe000 ≤ v then
                (parseStrBody rest3).map (fun p => (Char.ofNat v :: p.1, p.2))
              else none
            | _, _, _, _ => none
          | _ => none
        else none
    else if c.toNat < 32 then none
    else (parseStrBody rest).map (fun p => (c :: p.1, p.2))

def spanDigits (cs : List Char) : List Char × List Char :=
  (cs.takeWhile Char.isDigit, cs.dropWhile Char.isDigit)

def parseIntPart : List Char → Option (List Char × List Char)
  | [] => none
  | c :: rest =>
    if c = '0' then some (['0'], rest)
    else if c.isDigit then
      some (c :: (spanDigits rest).1, (spanDigits rest).2)
    else none

def parseFracPart : List Char → Option (List Char × List Char)
  | [] => some ([], [])
  | c :: rest =>
    if c = '.' then
      if (spanDigits rest).1.isEmpty then none
      else some ('.' :: (spanDigits rest).1, (spanDigits rest).2)
    else some ([], c :: rest)

def parseExpPart : List Char → Option (List Char × List Char)
  | [] => some ([], [])
  | c :: rest =>
    if c = 'e' ∨ c = 'E' then
      match rest with
      | [] => none
      | s :: rest2 =>
        if s = '+' ∨ s = '-' then
          if (spanDigits rest2).1.isEmpty then none
          else some (c :: s :: (spanDigits rest2).1, (spanDigits rest2).2)
        else
          if (spanDigits rest).1.isEmpty then none
          else some (c :: (spanDigits rest).1, (spanDigits rest).2)
    else some ([], c :: rest)

/-- Lex a JSON number literal. -/
def parseNumberLit (cs : List Char) : Option (List Char × List Char) :=
  match cs with
  | '-' :: rest =>
    match parseIntPart rest with
    | none => none
    | some (ip, r1) =>
      match parseFracPart r1 with
      | none => none
      | some (fp, r2) =>
        match parseExpPart r2 with
        | none => none
        | some (ep, r3) => some ('-' :: (ip ++ fp ++ ep), r3)
  | _ =>
    match parseIntPart cs with
    | none => none
    | some (ip, r1) =>
      match parseFracPart r1 with
      | none => none
      | some (fp, r2) =>
        match parseExpPart r2 with
        | none => none
        | some (ep, r3) => some (ip ++ fp ++ ep, r3)

def dropLit : List Char → List Char → Option (List Char)
  | [], cs => some cs
  | _ :: _, [] => none
  | l :: ls, c :: cs => if c = l then dropLit ls cs else none

mutual

/-- Recursive-descent model of `JSON.parse`, with a fuel argument
decremented on every recursive call; `Json.parse` below supplies enough
fuel for any input. -/
def parseValue : Nat → List Char → Option (Json × List Char)
  | 0, _ => none
  | fuel + 1, cs =>
    match skipWs cs with
    | [] => none
    | c :: rest =>
      if c = '"' then
        match parseStrBody rest with
        | some (body, r2) => some (.str (String.mk body), r2)
        | none => none
      else if c = '[' then
        match skipWs rest with
        | [] => parseElems fuel rest []
        | c2 :: r2 =>
          if c2 = ']' then some (.arr [], r2) else parseElems fuel rest []
      else if c = '\x7b' then
        match skipWs rest with
        | [] => parseFields fuel rest []
        | c2 :: r2 =>
          if c2 = '\x7d' then some (.obj [], r2) else parseFields fuel rest []
      else if c = 't' then
        match dropLit ['r', 'u', 'e'] rest with
        | some r2 => some (.bool true, r2)
        | none => none
      else if c = 'f' then
        match dropLit ['a', 'l', 's', 'e'] rest with
        | some r2 => some (.bool false, r2)
        | none => none
      else if c = 'n' then
        match dropLit ['u', 'l', 'l'] rest with
        | some r2 => some (.null, r2)
        | none => none
      else
        match parseNumberLit (c :: rest) with
        | some (lit, r2) => some (.num (String.mk lit), r2)
        | none => none

def parseElems : Nat → List Char → List Json → Option (Json × List Char)
  | 0, _, _ => none
  | fuel + 1, cs, acc =>
    match parseValue fuel cs with
    | none => none
    | some (j, rest) =>
      match skipWs rest with
      | [] => none
      | c :: r2 =>
        if c = ',' then parseElems fuel r2 (acc ++ [j])
        else if c = ']' then some (.arr (acc ++ [j]), r2)
        else none

def parseFields : Nat → List Char → List (String × Json) →
    Option (Json × List Char)
  | 0, _, _ => none
  | fuel + 1, cs, acc =>
    match skipWs cs with
    | [] => none
    | c :: rest =>
      if c = '"' then
        match parseStrBody rest with
        | none => none
        | some (key, r2) =>
          match skipWs r2 with
          | [] => none
          | c2 :: r3 =>
            if c2 = ':' then
              match parseValue fuel r3 with
              | none => none
              | some (j, r4) =>
                match skipWs r4 with
                | [] => none
                | c3 :: r5 =>
                  if c3 = ',' then
                    parseFields fuel r5 (acc ++ [(String.mk key, j)])
                  else if c3 = '\x7d' then
                    some (.obj (acc ++ [(String.mk key, j)]), r5)
                  else none
            else none
      else none

end

/-- The model of `JSON.parse`: parse one value and require only trailing
whitespace after it. -/
def Json.parse (s : String) : Option Json :=
  match parseValue (s.length + 1) s.data with
  | some (j, rest) => if (skipWs rest).isEmpty then some j else none
  | none => none

/-- The first match of the regular expression `/\[[\s\S]*\]/` in `s`
(used by `categorizeTablesWithLLM`, `mapping.ts` line 146): the
leftmost `[` that has some later `]`, extending greedily to the LAST
`]` of the whole string. -/
def arrayRegexMatch (s : String) : Option String :=
  match s.data.findIdx? (· == '['), s.data.reverse.findIdx? (· == ']') with
  | some i, some ri =>
    let j := s.data.length - 1 - ri
    if i < j then some (String.mk ((s.data.drop i).take (j - i + 1))) else none
  | _, _ => none

/-- Scanner for the specification-side reading: starting inside the
first `[` (depth 1), accumulate characters until the bracket depth
returns to zero, skipping over JSON string literals. -/
def scanBalanced : List Char → Nat → Bool → Bool → List Char → Option (List Char)
  | [], _, _, _, _ => none
  | c :: rest, depth, inStr, esc, acc =>
    if inStr then
      if esc then scanBalanced rest depth true false (c :: acc)
      else if c = '\\' then scanBalanced rest depth true true (c :: acc)
      else if c = '"' then scanBalanced rest depth false false (c :: acc)
      else scanBalanced rest depth true false (c :: acc)
    else if c = '"' then scanBalanced rest depth true false (c :: acc)
    else if c = '[' then scanBalanced rest (depth + 1) false false (c :: acc)
    else if c = ']' then
      if depth = 1 then some ((c :: acc).reverse)
      else scanBalanced rest (depth - 1) false false (c :: acc)
    else scanBalanced rest depth false false (c :: acc)

/-- The claim's extraction: the first syntactically balanced JSON array
found in the response (the first `[` together with its matching `]`,
string literals skipped). -/
def firstBalancedArray (s : String) : Option String :=
  match s.data.dropWhile (· != '[') with
  | [] => none
  | c :: rest => (scanBalanced rest 1 false false [c]).map String.mk

/-- Read a string-valued property of a parsed JSON item (JavaScript
object semantics: the last binding of a key wins; a missing key or a
non-string value is `undefined` for the purposes of this model, whose
table fields are typed as strings). -/
def itemStrField (item : Json) (key : String) : Option String :=
  match item with
  | .obj fs =>
    match fs.reverse.lookup key with
    | some (.str s) => some s
    | _ => none
  | _ => none

/-- One iteration of the merge loop of `categorizeTablesWithLLM`
(`mapping.ts` lines 155-162): look the item's `table` name up and, on a
hit, overwrite `llm_category` and `llm_description`. -/
def applyItem (ts : List Table) (item : Json) : List Table :=
  match itemStrField item "table" with
  | none => ts
  | some nm =>
    ts.map (fun t =>
      if t.name = nm then
        { t with llm_category := itemStrField item "category",
                 llm_description := itemStrField item "description" }
      else t)

/-- The whole merge loop.  A `null` item makes the JavaScript property
access `item.table` throw; the tables already updated keep their new
annotations (the objects are mutated in place) and the exception is
caught at the build boundary, so the loop's net effect is to stop
there. -/
def mergeItems (ts : List Table) : List Json → List Table
  | [] => ts
  | .null :: _ => ts
  | item :: rest => mergeItems (applyItem ts item) rest

/-- Net effect of `categorizeTablesWithLLM` on the table set as observed
by `buildVirtualTree` (`mapping.ts` lines 41-48 and 143-164): extract
with the greedy regex; no match means the tables are returned unchanged;
an unparsable match makes `JSON.parse` throw, which the build catches,
keeping the tables unchanged; a parsed array is merged. -/
def categorizeAtBuild (ts : List Table) (response : String) : List Table :=
  match arrayRegexMatch response with
  | none => ts
  | some extracted =>
    match Json.parse extracted with
    | none => ts
    | some (.arr items) => mergeItems ts items
    | some _ => ts

/-- The categorization step as `buildVirtualTree` runs it (`mapping.ts`
lines 40-48): skipped without the classifier credential, tables
unchanged if the classifier call itself fails. -/
def buildUseTables (apiKey : Option String) (classifyResp : Except Unit String)
    (ts : List Table) : List Table :=
  match apiKey with
  | none => ts
  | some _ =>
    match classifyResp with
    | .error _ => ts
    | .ok resp => categorizeAtBuild ts resp

/-- The claim-side categorization: parse the first syntactically
balanced JSON array of the response and merge it. -/
def specCategorize (ts : List Table) (response : String) : List Table :=
  match firstBalancedArray response with
  | none => ts
  | some s =>
    match Json.parse s with
    | none => ts
    | some (.arr items) => mergeItems ts items
    | some _ => ts

/-- A table and a classifier response whose trailing prose contains a
bracket character. -/
def c2Table : Table :=
  { name := "t1", comment := some "", columns := [],
    llm_category := none, llm_description := none }

def c2Resp : String :=
  "Sure! \x7b:\x7d [\x7b\"table\": \"t1\", \"category\": \"c\", \"description\": \"d\"\x7d] as you asked :]"

/-- Counterexample to C2 as stated: `c2Resp` contains a balanced JSON
array followed by prose holding a further `]`.  The claim predicts the
array is extracted and parsed (so table `t1` gets category `c`), but the
code's greedy `/\[[\s\S]*\]/` match runs through the last `]` of the
prose, `JSON.parse` throws on it, and the build falls back to the
unchanged tables. -/
theorem c2_categorizer_extraction_counterexample :
    categorizeAtBuild [c2Table] c2Resp = [c2Table]
    ∧ specCategorize [c2Table] c2Resp =
        [{ c2Table with llm_category := some "c", llm_description := some "d" }]
    ∧ ([c2Table] : List Table) ≠
        [{ c2Table with llm_category := some "c", llm_description := some "d" }] := by
  refine ⟨by decide, by decide, by decide⟩

/-- C2 (amended): the categorizer extracts the substring of the response
running from the first `[` to the last `]` of the whole response (the
greedy regex match), not the first balanced array; when the response has
no such substring the tables are returned unchanged; when the extracted
substring is not valid JSON the thrown parse error is caught at the
build boundary and the tables are likewise unchanged; a successfully
parsed array is merged; and when the classifier capability is absent or
the classifier call fails, the tables are returned unchanged — all
non-fatal to the build. -/
theorem c2_categorizer_extraction_amended (ts : List Table) (resp : String) :
    (arrayRegexMatch resp = none → categorizeAtBuild ts resp = ts)
    ∧ (∀ s, arrayRegexMatch resp = some s → Json.parse s = none →
        categorizeAtBuild ts resp = ts)
    ∧ (∀ s items, arrayRegexMatch resp = some s →
        Json.parse s = some (.arr items) →
        categorizeAtBuild ts resp = mergeItems ts items)
    ∧ (∀ r, buildUseTables none r ts = ts)
    ∧ buildUseTables (some "key") (.error ()) ts = ts := by
  refine ⟨?_, ?_, ?_, ?_, ?_⟩
  · intro h
    unfold categorizeAtBuild
    rw [h]
  · intro s hs hp
    unfold categorizeAtBuild
    simp only [hs, hp]
  · intro s items hs hp
    unfold categorizeAtBuild
    simp only [hs, hp]
  · intro r
    rfl
  · rfl

theorem c2_categorizer_extraction_amended_witness :
    categorizeAtBuild [c2Table] "no array here" = [c2Table]
    ∧ categorizeAtBuild [c2Table] "[1] x ]" = [c2Table]
    ∧ categorizeAtBuild [c2Table]
        "[\x7b\"table\": \"t1\", \"category\": \"c\", \"description\": \"d\"\x7d]" =
        mergeItems [c2Table]
          [.obj [("table", .str "t1"), ("category", .str "c"),
                 ("description", .str "d")]] := by
  refine ⟨?_, ?_, ?_⟩
  · exact (c2_categorizer_extraction_amended [c2Table] "no array here").1 rfl
  · exact (c2_categorizer_extraction_amended [c2Table] "[1] x ]").2.1 "[1] x ]" rfl rfl
  · exact (c2_categorizer_extraction_amended [c2Table]
      "[\x7b\"table\": \"t1\", \"category\": \"c\", \"description\": \"d\"\x7d]").2.2.1
      "[\x7b\"table\": \"t1\", \"category\": \"c\", \"description\": \"d\"\x7d]"
      [.obj [("table", .str "t1"), ("category", .str "c"), ("description", .str "d")]]
      (by decide) rfl

/-- One row of the `information_schema.tables` introspection query
(`db.ts`). -/
structure TableRow where
  TABLE_NAME : String
  TABLE_SCHEMA : String
  TABLE_COMMENT : String
deriving DecidableEq, Repr

/-- One row of the `information_schema.columns` introspection query,
already ordered by table and ordinal position (`db.ts`). -/
structure ColumnRow where
  TABLE_NAME : String
  COLUMN_NAME : String
  DATA_TYPE : String
  COLUMN_KEY : String
deriving DecidableEq, Repr

/-- JavaScript `obj[k] = v` on a string-keyed object embedded as an
insertion-ordered association list: replace in place when the key
exists, append otherwise. -/
def insertAssoc {β : Type} (m : List (String × β)) (k : String) (v : β) :
    List (String × β) :=
  if m.any (fun e => e.1 == k) then
    m.map (fun e => if e.1 = k then (k, v) else e)
  else m ++ [(k, v)]

/-- A fresh `Table` as `buildVirtualTree` creates it (`mapping.ts`
line 30): `comment: t.TABLE_COMMENT || ''`, no columns, no
annotations. -/
def freshTable (r : TableRow) : Table :=
  { name := r.TABLE_NAME, comment := some (jsOrStr (some r.TABLE_COMMENT) ""),
    columns := [], llm_category := none, llm_description := none }

def buildTableMap (rows : List TableRow) : List (String × Table) :=
  rows.foldl (fun m r => insertAssoc m r.TABLE_NAME (freshTable r)) []

def colOfRow (c : ColumnRow) : Column :=
  { name := c.COLUMN_NAME, data_type := c.DATA_TYPE, key := c.COLUMN_KEY }

/-- One iteration of the column loop (`mapping.ts` lines 33-37): push
the column onto the table named by the row, skip rows naming a table
absent from the map. -/
def pushColumn (m : List (String × Table)) (c : ColumnRow) : List (String × Table) :=
  m.map (fun e =>
    if e.1 = c.TABLE_NAME then
      (e.1, { e.2 with columns := e.2.columns ++ [colOfRow c] })
    else e)

def addColumnsAll (m : List (String × Table)) (cols : List ColumnRow) :
    List (String × Table) :=
  cols.foldl pushColumn m

/-- `Object.values(tableMap)`. -/
def tableValues (m : List (String × Table)) : List Table := m.map (fun e => e.2)

/-- The database name (`mapping.ts` line 26): the first row's
`TABLE_SCHEMA`, else the caller-supplied name, else the configured
default, else `'database'`, with the empty string falsy at each step. -/
def dbNameOf (rows : List TableRow) (dbParam envDb : Option String) : String :=
  jsOrStr (jsOr (rows.head?.map (fun r => r.TABLE_SCHEMA)) (jsOr dbParam envDb))
    "database"

/-- `categories[cat] = categories[cat] || []; categories[cat].push(tbl)`
(`mapping.ts` lines 50-55). -/
def addToCategory (cats : List (String × List Table)) (key : String) (t : Table) :
    List (String × List Table) :=
  if cats.any (fun e => e.1 == key) then
    cats.map (fun e => if e.1 = key then (e.1, e.2 ++ [t]) else e)
  else cats ++ [(key, [t])]

def buildCategories (ts : List Table) : List (String × List Table) :=
  ts.foldl (fun cats t => addToCategory cats (jsOrStr t.llm_category "other") t) []

/-- Re-pair the categorized value list with the (unchanged) keys of the
table map: the JavaScript merge mutates the very objects the map holds,
so map values and the categorized list stay identical. -/
def rezipMap (m : List (String × Table)) (vs : List Table) : List (String × Table) :=
  List.zipWith (fun e v => (e.1, v)) m vs

/-- The configuration and external-call outcomes `buildVirtualTree`
depends on: the classifier credential, the configured default database,
the classifier call (a response text or a thrown failure) and the
organizer call (a raw parsed tree or a thrown failure). -/
structure BuildEnv where
  apiKey : Option String
  envDb : Option String
  classifyResp : Except Unit String
  organizeRaw : Except Unit PathNode

/-- The assembly `buildVirtualTree` (`mapping.ts` lines 23-68):
introspected rows in, table map and `database` name built, optional
categorization (non-fatal), bucketing into `categories`, optional
organization (root absent on failure or when no credential is
configured). -/
def buildVirtualTree (env : BuildEnv) (dbParam : Option String)
    (rows : List TableRow) (cols : List ColumnRow) : VirtualTree :=
  let m0 := addColumnsAll (buildTableMap rows) cols
  let useTableList := buildUseTables env.apiKey env.classifyResp (tableValues m0)
  let root :=
    match env.apiKey with
    | none => none
    | some _ =>
      match env.organizeRaw with
      | .error _ => none
      | .ok raw => some (organizePostProcess raw)
  { database := dbNameOf rows dbParam env.envDb,
    categories := buildCategories useTableList,
    tables := rezipMap m0 useTableList,
    root := root }

theorem rezipMap_self (m : List (String × Table)) : rezipMap m (tableValues m) = m := by
  induction m with
  | nil => rfl
  | cons e rest ih =>
    simp only [rezipMap, tableValues, List.map_cons, List.zipWith_cons_cons] at *
    rw [ih]

theorem addToCategory_other (acc rest : List Table)
    (h : ∀ t ∈ rest, jsOrStr t.llm_category "other" = "other") :
    List.foldl (fun cats t => addToCategory cats (jsOrStr t.llm_category "other") t)
      [("other", acc)] rest = [("other", acc ++ rest)] := by
  induction rest generalizing acc with
  | nil => simp
  | cons t rest2 ih =>
    simp only [List.foldl_cons]
    rw [h t (by simp)]
    have hstep : addToCategory [("other", acc)] "other" t = [("other", acc ++ [t])] := by
      simp [addToCategory]
    rw [hstep, ih (acc ++ [t]) (fun x hx => h x (by simp [hx]))]
    simp

theorem buildCategories_all_other (ts : List Table)
    (h : ∀ t ∈ ts, jsOrStr t.llm_category "other" = "other") (hne : ts ≠ []) :
    buildCategories ts = [("other", ts)] := by
  cases ts with
  | nil => exact absurd rfl hne
  | cons t rest =>
    unfold buildCategories
    simp only [List.foldl_cons]
    rw [h t (by simp)]
    have hstep : addToCategory [] "other" t = [("other", [t])] := by
      simp [addToCategory]
    rw [hstep, addToCategory_other [t] rest (fun x hx => h x (by simp [hx]))]
    simp

theorem pushColumn_lookup (m : List (String × Table)) (c : ColumnRow) (nm : String) :
    (pushColumn m c).lookup nm =
      (m.lookup nm).map (fun t =>
        if c.TABLE_NAME = nm then
          { t with columns := t.columns ++ [colOfRow c] }
        else t) := by
  induction m with
  | nil => rfl
  | cons e rest ih =>
    obtain ⟨k, v⟩ := e
    have hhead : pushColumn ((k, v) :: rest) c =
        (if k = c.TABLE_NAME then
          (k, { v with columns := v.columns ++ [colOfRow c] })
         else (k, v)) :: pushColumn rest c := by
      simp only [pushColumn, List.map_cons]
    rw [hhead]
    by_cases he : k = c.TABLE_NAME
    · rw [if_pos he, List.lookup_cons, List.lookup_cons]
      cases hk : (nm == k) with
      | true =>
        have hnm : nm = k := beq_iff_eq.mp hk
        have hcn : c.TABLE_NAME = nm := by rw [hnm, he]
        simp [hcn]
      | false => exact ih
    · rw [if_neg he, List.lookup_cons, List.lookup_cons]
      cases hk : (nm == k) with
      | true =>
        have hnm : nm = k := beq_iff_eq.mp hk
        have hcn : ¬ c.TABLE_NAME = nm := by
          rw [hnm]
          exact fun hcc => he hcc.symm
        simp [hcn]
      | false => exact ih

theorem addColumnsAll_lookup (cols : List ColumnRow) (m : List (String × Table))
    (nm : String) :
    (addColumnsAll m cols).lookup nm =
      (m.lookup nm).map (fun t =>
        { t with columns :=
            t.columns ++ (cols.filter (fun c => c.TABLE_NAME == nm)).map colOfRow }) := by
  induction cols generalizing m with
  | nil =>
    cases hl : m.lookup nm <;> simp [addColumnsAll, hl]
  | cons c rest ih =>
    have hstep : addColumnsAll m (c :: rest) = addColumnsAll (pushColumn m c) rest := rfl
    rw [hstep, ih, pushColumn_lookup]
    cases hl : m.lookup nm with
    | none => rfl
    | some t =>
      simp only [Option.map_some']
      by_cases hc : c.TABLE_NAME = nm
      · rw [if_pos hc]
        have hf : (c :: rest).filter (fun x => x.TABLE_NAME == nm) =
            c :: rest.filter (fun x => x.TABLE_NAME == nm) := by
          simp [List.filter_cons, hc]
        rw [hf]
        simp [List.append_assoc]
      · rw [if_neg hc]
        have hf : (c :: rest).filter (fun x => x.TABLE_NAME == nm) =
            rest.filter (fun x => x.TABLE_NAME == nm) := by
          simp [List.filter_cons, hc]
        rw [hf]

theorem insertAssoc_llm_none {m : List (String × Table)} {k : String} {v : Table}
    (hm : ∀ e ∈ m, (e.2).llm_category = none) (hv : v.llm_category = none) :
    ∀ e ∈ insertAssoc m k v, (e.2).llm_category = none := by
  intro e he
  unfold insertAssoc at he
  split at he
  · obtain ⟨a, ha, hae⟩ := List.mem_map.mp he
    by_cases hk : a.1 = k
    · rw [if_pos hk] at hae
      rw [← hae]
      exact hv
    · rw [if_neg hk] at hae
      rw [← hae]
      exact hm a ha
  · rcases List.mem_append.mp he with h1 | h2
    · exact hm e h1
    · have : e = (k, v) := by simpa using h2
      rw [this]
      exact hv

theorem buildTableMap_llm_none_aux (rows : List TableRow)
    (m : List (String × Table)) (hm : ∀ e ∈ m, (e.2).llm_category = none) :
    ∀ e ∈ rows.foldl (fun m r => insertAssoc m r.TABLE_NAME (freshTable r)) m,
      (e.2).llm_category = none := by
  induction rows generalizing m with
  | nil => exact hm
  | cons r rest ih =>
    simp only [List.foldl_cons]
    exact ih _ (insertAssoc_llm_none hm rfl)

theorem addColumnsAll_llm_none (cols : List ColumnRow)
    (m : List (String × Table)) (hm : ∀ e ∈ m, (e.2).llm_category = none) :
    ∀ e ∈ addColumnsAll m cols, (e.2).llm_category = none := by
  induction cols generalizing m with
  | nil => exact hm
  | cons c rest ih =>
    simp only [addColumnsAll, List.foldl_cons]
    refine ih (pushColumn m c) ?_
    intro e he
    obtain ⟨a, ha, hae⟩ := List.mem_map.mp he
    by_cases hk : a.1 = c.TABLE_NAME
    · rw [if_pos hk] at hae
      rw [← hae]
      exact hm a ha
    · rw [if_neg hk] at hae
      rw [← hae]
      exact hm a ha

theorem insertAssoc_ne_nil {β : Type} (m : List (String × β)) (k : String) (v : β) :
    insertAssoc m k v ≠ [] := by
  unfold insertAssoc
  split
  · rename_i hany
    cases m with
    | nil => simp at hany
    | cons a r => simp
  · simp

theorem buildTableMap_ne_nil_aux (rows : List TableRow)
    (m : List (String × Table)) (hm : m ≠ [] ∨ rows ≠ []) :
    rows.foldl (fun m r => insertAssoc m r.TABLE_NAME (freshTable r)) m ≠ [] := by
  induction rows generalizing m with
  | nil =>
    rcases hm with h | h
    · exact h
    · exact absurd rfl h
  | cons r rest ih =>
    simp only [List.foldl_cons]
    exact ih _ (Or.inl (insertAssoc_ne_nil m _ _))

theorem addColumnsAll_ne_nil (cols : List ColumnRow)
    (m : List (String × Table)) (hm : m ≠ []) : addColumnsAll m cols ≠ [] := by
  induction cols generalizing m with
  | nil => exact hm
  | cons c rest ih =>
    simp only [addColumnsAll, List.foldl_cons]
    refine ih (pushColumn m c) ?_
    unfold pushColumn
    simpa using hm

theorem lookup_mem_val {β : Type} (m : List (String × β)) (nm : String) (v : β)
    (h : m.lookup nm = some v) : ∃ k, (k, v) ∈ m := by
  induction m with
  | nil => simp at h
  | cons e rest ih =>
    obtain ⟨k, w⟩ := e
    rw [List.lookup_cons] at h
    cases hk : (nm == k) with
    | true =>
      rw [hk] at h
      have hv : w = v := by simpa using h
      exact ⟨k, by simp [hv]⟩
    | false =>
      rw [hk] at h
      obtain ⟨k2, hm⟩ := ih h
      exact ⟨k2, by simp [hm]⟩

theorem insertAssoc_prop {β : Type} {P : β → Prop} {m : List (String × β)}
    {k : String} {v : β} (hm : ∀ e ∈ m, P e.2) (hv : P v) :
    ∀ e ∈ insertAssoc m k v, P e.2 := by
  intro e he
  unfold insertAssoc at he
  split at he
  · obtain ⟨a, ha, hae⟩ := List.mem_map.mp he
    by_cases hk : a.1 = k
    · rw [if_pos hk] at hae
      rw [← hae]
      exact hv
    · rw [if_neg hk] at hae
      rw [← hae]
      exact hm a ha
  · rcases List.mem_append.mp he with h1 | h2
    · exact hm e h1
    · have : e = (k, v) := by simpa using h2
      rw [this]
      exact hv

theorem buildTableMap_cols_nil (rows : List TableRow) :
    ∀ e ∈ buildTableMap rows, (e.2).columns = [] := by
  have haux : ∀ (rs : List TableRow) (m : List (String × Table)),
      (∀ e ∈ m, (e.2).columns = []) →
      ∀ e ∈ rs.foldl (fun m r => insertAssoc m r.TABLE_NAME (freshTable r)) m,
        (e.2).columns = [] := by
    intro rs
    induction rs with
    | nil => intro m hm; exact hm
    | cons r rest ih =>
      intro m hm
      simp only [List.foldl_cons]
      exact ih _ (@insertAssoc_prop Table (fun t => t.columns = []) m
        r.TABLE_NAME (freshTable r) hm rfl)
  exact haux rows [] (by simp)

theorem buildVirtualTree_no_key (env : BuildEnv) (dbParam : Option String)
    (rows : List TableRow) (cols : List ColumnRow) (hkey : env.apiKey = none) :
    buildVirtualTree env dbParam rows cols =
      { database := dbNameOf rows dbParam env.envDb,
        categories :=
          buildCategories (tableValues (addColumnsAll (buildTableMap rows) cols)),
        tables := addColumnsAll (buildTableMap rows) cols,
        root := none } := by
  simp only [buildVirtualTree, buildUseTables, hkey, rezipMap_self]

/-- C4 (amended): when the classifier credential is absent, the built
tree has no `root`, its `categories` map is exactly the single key
`"other"` holding every catalog table (provided the catalog reports at
least one table; an empty catalog yields an empty `categories` map);
`schema_ls "/"` on such a tree fails with the not-initialized internal
error, and `get_table_schema` succeeds for every table of `tables`,
listing each column's name and data type in catalog declaration
order. -/
theorem c4_no_classifier_build (env : BuildEnv) (dbParam : Option String)
    (rows : List TableRow) (cols : List ColumnRow) (T : VirtualTree)
    (hT : T = buildVirtualTree env dbParam rows cols)
    (hkey : env.apiKey = none) (hne : rows ≠ []) :
    T.root = none
    ∧ T.categories = [("other", tableValues T.tables)]
    ∧ schema_ls T "/" = .error .notInitialized
    ∧ (∀ nm t, T.tables.lookup nm = some t →
        get_table_schema T nm =
          .ok (t.columns.map (fun c =>
            { name := c.name, type := "column", dataType := c.data_type })))
    ∧ (∀ nm t, T.tables.lookup nm = some t →
        t.columns = (cols.filter (fun c => c.TABLE_NAME == nm)).map colOfRow) := by
  subst hT
  rw [buildVirtualTree_no_key env dbParam rows cols hkey]
  have hm0ne : addColumnsAll (buildTableMap rows) cols ≠ [] :=
    addColumnsAll_ne_nil cols (buildTableMap rows)
      (buildTableMap_ne_nil_aux rows [] (Or.inr hne))
  have hvals : ∀ t ∈ tableValues (addColumnsAll (buildTableMap rows) cols),
      jsOrStr t.llm_category "other" = "other" := by
    intro t ht
    obtain ⟨e, he, hev⟩ := List.mem_map.mp ht
    have hnone := addColumnsAll_llm_none cols (buildTableMap rows)
      (buildTableMap_llm_none_aux rows [] (by simp)) e he
    rw [← hev, hnone]
    rfl
  refine ⟨rfl, ?_, rfl, ?_, ?_⟩
  · exact buildCategories_all_other _ hvals (by
      intro hc
      exact hm0ne (by simpa [tableValues] using hc))
  · intro nm t h
    simp only [get_table_schema] at h ⊢
    rw [h]
  · intro nm t h
    simp only [] at h
    rw [addColumnsAll_lookup] at h
    cases hb : (buildTableMap rows).lookup nm with
    | none =>
      rw [hb] at h
      simp at h
    | some t0 =>
      rw [hb] at h
      simp only [Option.map_some'] at h
      obtain ⟨k, hk⟩ := lookup_mem_val _ _ _ hb
      have hc0 : t0.columns = [] := buildTableMap_cols_nil rows (k, t0) hk
      have ht : t = { t0 with columns :=
          t0.columns ++ (cols.filter (fun c => c.TABLE_NAME == nm)).map colOfRow } := by
        exact (Option.some.inj h).symm
      rw [ht, hc0]
      simp

/-- A build environment with the classifier capability absent. -/
def c4AbsentEnv : BuildEnv :=
  { apiKey := none, envDb := none, classifyResp := .error (), organizeRaw := .error () }

/-- Counterexample to C4 as stated: on an empty catalog the build
produces an empty `categories` map, which does not contain the key
`"other"` at all. -/
theorem c4_no_classifier_build_counterexample :
    (buildVirtualTree c4AbsentEnv none [] []).categories = []
    ∧ (buildVirtualTree c4AbsentEnv none [] []).categories.lookup "other" = none := by
  exact ⟨rfl, rfl⟩

def c4Rows : List TableRow :=
  [{ TABLE_NAME := "patients", TABLE_SCHEMA := "hospital", TABLE_COMMENT := "" },
   { TABLE_NAME := "visits", TABLE_SCHEMA := "hospital", TABLE_COMMENT := "" }]

def c4Cols : List ColumnRow :=
  [{ TABLE_NAME := "patients", COLUMN_NAME := "id", DATA_TYPE := "int",
     COLUMN_KEY := "PRI" },
   { TABLE_NAME := "patients", COLUMN_NAME := "name", DATA_TYPE := "varchar",
     COLUMN_KEY := "" },
   { TABLE_NAME := "visits", COLUMN_NAME := "id", DATA_TYPE := "int",
     COLUMN_KEY := "PRI" },
   { TABLE_NAME := "visits", COLUMN_NAME := "patient_id", DATA_TYPE := "int",
     COLUMN_KEY := "" },
   { TABLE_NAME := "visits", COLUMN_NAME := "date", DATA_TYPE := "date",
     COLUMN_KEY := "" }]

def c4PatientsTable : Table :=
  { name := "patients", comment := some "",
    columns := [{ name := "id", data_type := "int", key := "PRI" },
                { name := "name", data_type := "varchar", key := "" }],
    llm_category := none, llm_description := none }

theorem c4_no_classifier_build_witness :
    (buildVirtualTree c4AbsentEnv none c4Rows c4Cols).root = none
    ∧ (buildVirtualTree c4AbsentEnv none c4Rows c4Cols).categories =
        [("other", tableValues (buildVirtualTree c4AbsentEnv none c4Rows c4Cols).tables)]
    ∧ schema_ls (buildVirtualTree c4AbsentEnv none c4Rows c4Cols) "/" =
        .error .notInitialized
    ∧ get_table_schema (buildVirtualTree c4AbsentEnv none c4Rows c4Cols) "patients" =
        .ok [{ name := "id", type := "column", dataType := "int" },
             { name := "name", type := "column", dataType := "varchar" }] := by
  have h := c4_no_classifier_build c4AbsentEnv none c4Rows c4Cols _ rfl rfl (by decide)
  refine ⟨h.1, h.2.1, h.2.2.1, ?_⟩
  exact h.2.2.2.1 "patients" c4PatientsTable (by decide)

/-- The mutable state the accessor works on: the process-wide tree slot
and the cache file.  The cache file is `none` when absent, `some none`
when present but unparsable (`JSON.parse` throws and the accessor falls
through to a fresh build) and `some (some T)` when it parses — the
parsed value is cast to `VirtualTree` without validation, exactly as the
source trusts `JSON.parse(data)`. -/
structure ServerState where
  tree : Option VirtualTree
  cacheFile : Option (Option VirtualTree)

/-- The root-repair block of `ensureTree` (`mcp-server.ts` lines
128-139): when a tree is resident, lacks `root` and the organizer
credential is configured, run the organizer over the tables, attach the
post-processed result in place and persist; an organizer failure is
caught and leaves the tree unchanged. -/
def repairRoot (apiKey : Option String) (organizeRaw : Except Unit PathNode)
    (st : ServerState) (t : VirtualTree) : VirtualTree × ServerState :=
  match t.root, apiKey with
  | none, some _ =>
    match organizeRaw with
    | .ok raw =>
      let t2 := { t with root := some (organizePostProcess raw) }
      (t2, { tree := some t2, cacheFile := some (some t2) })
    | .error _ => (t, st)
  | _, _ => (t, st)

/-- The tree-owning accessor `ensureTree` (`mcp-server.ts` lines
107-142).  With no resident tree, a parsable cache file is loaded and
returned immediately — the early `return` on line 116 skips the repair
block on that call; otherwise a fresh build result is installed and
persisted and the call falls through to the repair block, as does every
call that finds a tree already resident. -/
def ensureTree (apiKey : Option String) (buildResult : VirtualTree)
    (organizeRaw : Except Unit PathNode) (st : ServerState) :
    VirtualTree × ServerState :=
  match st.tree with
  | none =>
    match st.cacheFile with
    | some (some cached) => (cached, { st with tree := some cached })
    | _ =>
      let st1 : ServerState :=
        { tree := some buildResult, cacheFile := some (some buildResult) }
      repairRoot apiKey organizeRaw st1 buildResult
  | some t => repairRoot apiKey organizeRaw st t

/-- The tree with its `root` field replaced by the post-processed
organizer output, as the repair block installs it. -/
def withRoot (t : VirtualTree) (raw : PathNode) : VirtualTree :=
  { t with root := some (organizePostProcess raw) }

def c5Table : Table :=
  { name := "t", comment := some "", columns := [],
    llm_category := none, llm_description := none }

/-- A cached tree lacking `root`. -/
def c5RootlessTree : VirtualTree :=
  { database := "db", categories := [("other", [c5Table])],
    tables := [("t", c5Table)], root := none }

def c5RawNode : PathNode :=
  .mk "/" "" "directory" (some [.mk "t" "" "file" none (some "t") none]) none none

/-- Counterexample to C5 as stated: with no resident tree, a cache file
holding a rootless tree, the organizer credential configured and the
organizer bound to succeed, the accessor call that loads the cache
returns the tree with `root` still absent — the early return on the
cache-hit path skips the repair block, so the first call that finds the
process-wide tree missing `root` performs no repair and does not return
a tree with `root` present. -/
theorem c5_lazy_root_repair_counterexample :
    ((ensureTree (some "key") c5RootlessTree (.ok c5RawNode)
        { tree := none, cacheFile := some (some c5RootlessTree) }).1).root = none
    ∧ (ensureTree (some "key") c5RootlessTree (.ok c5RawNode)
        { tree := none, cacheFile := some (some c5RootlessTree) }).2.tree =
        some c5RootlessTree := by
  exact ⟨rfl, rfl⟩

/-- C5 (amended): the repair runs on the first call that inspects a
resident in-memory tree lacking `root` (a call that loads the tree from
the cache returns it immediately without the repair check; the next call
repairs it), and on the fresh-build path within the building call
itself.  When the repair runs with the organizer available and
succeeding, it attaches the post-processed root to the tree in place,
persists the repaired tree to the cache, and the accessor returns the
repaired tree. -/
theorem c5_lazy_root_repair (apiKey : String) (bld t : VirtualTree)
    (raw : PathNode) (st : ServerState) :
    (st.tree = some t → t.root = none →
      ensureTree (some apiKey) bld (.ok raw) st =
        (withRoot t raw,
         { tree := some (withRoot t raw),
           cacheFile := some (some (withRoot t raw)) }))
    ∧ (st.tree = none → st.cacheFile = none → bld.root = none →
      ensureTree (some apiKey) bld (.ok raw) st =
        (withRoot bld raw,
         { tree := some (withRoot bld raw),
           cacheFile := some (some (withRoot bld raw)) })) := by
  constructor
  · intro hres hroot
    obtain ⟨tr, cf⟩ := st
    simp only [ServerState.tree] at hres
    subst hres
    show repairRoot (some apiKey) (.ok raw) ⟨some t, cf⟩ t = _
    unfold repairRoot
    rw [hroot]
    rfl
  · intro hres hcache hroot
    obtain ⟨tr, cf⟩ := st
    simp only [ServerState.tree] at hres
    simp only [ServerState.cacheFile] at hcache
    subst hres
    subst hcache
    unfold ensureTree repairRoot
    rw [hroot]
    rfl

theorem c5_lazy_root_repair_witness :
    ensureTree (some "key") c5RootlessTree (.ok c5RawNode)
        { tree := some c5RootlessTree, cacheFile := some (some c5RootlessTree) } =
      (withRoot c5RootlessTree c5RawNode,
       { tree := some (withRoot c5RootlessTree c5RawNode),
         cacheFile := some (some (withRoot c5RootlessTree c5RawNode)) }) := by
  exact (c5_lazy_root_repair "key" c5RootlessTree c5RootlessTree c5RawNode
    { tree := some c5RootlessTree, cacheFile := some (some c5RootlessTree) }).1 rfl rfl

def hexDigit (n : Nat) : Char :=
  if n < 10 then Char.ofNat (48 + n) else Char.ofNat (87 + n)

/-- `QuoteJSONString`: the escapes `JSON.stringify` emits for one
character. -/
def escapeChar (c : Char) : List Char :=
  if c = '"' then ['\\', '"']
  else if c = '\\' then ['\\', '\\']
  else if c = Char.ofNat 8 then ['\\', 'b']
  else if c = Char.ofNat 9 then ['\\', 't']
  else if c = Char.ofNat 10 then ['\\', 'n']
  else if c = Char.ofNat 12 then ['\\', 'f']
  else if c = Char.ofNat 13 then ['\\', 'r']
  else if c.toNat < 32 then
    ['\\', 'u', '0', '0', hexDigit (c.toNat / 16), hexDigit (c.toNat % 16)]
  else [c]

def escapeChars : List Char → List Char
  | [] => []
  | c :: rest => escapeChar c ++ escapeChars rest

def quoteChars (s : String) : List Char :=
  '"' :: (escapeChars s.data ++ ['"'])

/-- The indentation `JSON.stringify(·, null, 2)` puts in front of a
nesting level. -/
def indentChars (level : Nat) : List Char :=
  List.replicate (2 * level) ' '

mutual

/-- `JSON.stringify(v, null, 2)` as a character list, at a given nesting
level. -/
def stringifyVal (level : Nat) : Json → List Char
  | .null => "null".data
  | .bool true => "true".data
  | .bool false => "false".data
  | .num lit => lit.data
  | .str s => quoteChars s
  | .arr [] => ['[', ']']
  | .arr (j :: js) =>
    '[' :: (stringifyItems (level + 1) j js ++
      ('\n' :: (indentChars level ++ [']'])))
  | .obj [] => ['\x7b', '\x7d']
  | .obj (f :: fs) =>
    '\x7b' :: (stringifyFields (level + 1) f fs ++
      ('\n' :: (indentChars level ++ ['\x7d'])))
termination_by j => sizeOf j

def stringifyItems (level : Nat) (j : Json) : List Json → List Char
  | [] => '\n' :: (indentChars level ++ stringifyVal level j)
  | j2 :: js =>
    '\n' :: (indentChars level ++ stringifyVal level j ++
      (',' :: stringifyItems level j2 js))
termination_by js => 1 + sizeOf j + sizeOf js

def stringifyFields (level : Nat) (f : String × Json) :
    List (String × Json) → List Char
  | [] =>
    '\n' :: (indentChars level ++ quoteChars f.1 ++
      (':' :: ' ' :: stringifyVal level f.2))
  | f2 :: fs =>
    '\n' :: (indentChars level ++ quoteChars f.1 ++
      (':' :: ' ' :: stringifyVal level f.2) ++ (',' :: stringifyFields level f2 fs))
termination_by fs => 1 + sizeOf f + sizeOf fs
decreasing_by all_goals (cases f; simp; try omega)

end

def jsonStringify (j : Json) : String :=
  String.mk (stringifyVal 0 j)

mutual

/-- Fuel sufficient for `parseValue` to parse the printed form of a
value. -/
def jfuel : Json → Nat
  | .arr (j :: js) => 1 + jfuelItems j js
  | .obj (f :: fs) => 1 + jfuelFields f fs
  | _ => 1
termination_by j => sizeOf j

def jfuelItems (j : Json) : List Json → Nat
  | [] => 1 + jfuel j
  | j2 :: js => 1 + jfuel j + jfuelItems j2 js
termination_by js => 1 + sizeOf j + sizeOf js

def jfuelFields (f : String × Json) : List (String × Json) → Nat
  | [] => 1 + jfuel f.2
  | f2 :: fs => 1 + jfuel f.2 + jfuelFields f2 fs
termination_by fs => 1 + sizeOf f + sizeOf fs
decreasing_by all_goals (cases f; simp; try omega)

end

mutual

/-- The JSON values the tree serialization produces: strings, arrays and
objects only (no numbers, booleans or nulls). -/
def goodJson : Json → Bool
  | .null => false
  | .bool _ => false
  | .num _ => false
  | .str _ => true
  | .arr l => goodList l
  | .obj fs => goodFields fs
termination_by j => sizeOf j

def goodList : List Json → Bool
  | [] => true
  | j :: js => goodJson j && goodList js
termination_by l => sizeOf l

def goodFields : List (String × Json) → Bool
  | [] => true
  | f :: fs => goodJson f.2 && goodFields fs
termination_by fs => sizeOf fs
decreasing_by all_goals (first
  | (cases f; simp; try omega)
  | (cases f2; simp; try omega)
  | (simp; try omega))

end

theorem hexDigitVal_hexDigit : ∀ n < 16, hexDigitVal (hexDigit n) = some n := by
  decide

theorem parseStrBody_u_escape (n : Nat) (hn : n < 32) (tail : List Char) :
    parseStrBody ('\\' :: 'u' :: '0' :: '0' ::
        hexDigit (n / 16) :: hexDigit (n % 16) :: tail) =
      (parseStrBody tail).map (fun p => (Char.ofNat n :: p.1, p.2)) := by
  have hd1 := hexDigitVal_hexDigit (n / 16) (by omega)
  have hd2 := hexDigitVal_hexDigit (n % 16) (by omega)
  have h0 : hexDigitVal '0' = some 0 := by decide
  conv_lhs => unfold parseStrBody
  simp [hd1, hd2, h0]
  have hv : (n / 16) * 16 + n % 16 = n := by omega
  rw [hv]
  rw [if_pos (Or.inl (by omega))]

theorem parseStrBody_escape (cs rest : List Char) :
    parseStrBody (escapeChars cs ++ ('"' :: rest)) = some (cs, rest) := by
  induction cs with
  | nil =>
    simp only [escapeChars, List.nil_append]
    conv_lhs => unfold parseStrBody
    simp
  | cons c cs' ih =>
    simp only [escapeChars]
    rw [List.append_assoc]
    unfold escapeChar
    by_cases h1 : c = '"'
    · subst h1
      rw [if_pos rfl]
      rw [show (['\\', '"'] : List Char) ++ (escapeChars cs' ++ '"' :: rest) =
        '\\' :: '"' :: (escapeChars cs' ++ '"' :: rest) from rfl]
      conv_lhs => unfold parseStrBody
      simp [ih]
    · rw [if_neg h1]
      by_cases h2 : c = '\\'
      · subst h2
        rw [if_pos rfl]
        rw [show (['\\', '\\'] : List Char) ++ (escapeChars cs' ++ '"' :: rest) =
          '\\' :: '\\' :: (escapeChars cs' ++ '"' :: rest) from rfl]
        conv_lhs => unfold parseStrBody
        simp [ih]
      · rw [if_neg h2]
        by_cases h3 : c = Char.ofNat 8
        · subst h3
          rw [if_pos rfl]
          rw [show (['\\', 'b'] : List Char) ++ (escapeChars cs' ++ '"' :: rest) =
            '\\' :: 'b' :: (escapeChars cs' ++ '"' :: rest) from rfl]
          conv_lhs => unfold parseStrBody
          simp [ih]
        · rw [if_neg h3]
          by_cases h4 : c = Char.ofNat 9
          · subst h4
            rw [if_pos rfl]
            rw [show (['\\', 't'] : List Char) ++ (escapeChars cs' ++ '"' :: rest) =
              '\\' :: 't' :: (escapeChars cs' ++ '"' :: rest) from rfl]
            conv_lhs => unfold parseStrBody
            simp [ih]
          · rw [if_neg h4]
            by_cases h5 : c = Char.ofNat 10
            · subst h5
              rw [if_pos rfl]
              rw [show (['\\', 'n'] : List Char) ++ (escapeChars cs' ++ '"' :: rest) =
                '\\' :: 'n' :: (escapeChars cs' ++ '"' :: rest) from rfl]
              conv_lhs => unfold parseStrBody
              simp [ih]
            · rw [if_neg h5]
              by_cases h6 : c = Char.ofNat 12
              · subst h6
                rw [if_pos rfl]
                rw [show (['\\', 'f'] : List Char) ++ (escapeChars cs' ++ '"' :: rest) =
                  '\\' :: 'f' :: (escapeChars cs' ++ '"' :: rest) from rfl]
                conv_lhs => unfold parseStrBody
                simp [ih]
              · rw [if_neg h6]
                by_cases h7 : c = Char.ofNat 13
                · subst h7
                  rw [if_pos rfl]
                  rw [show (['\\', 'r'] : List Char) ++ (escapeChars cs' ++ '"' :: rest) =
                    '\\' :: 'r' :: (escapeChars cs' ++ '"' :: rest) from rfl]
                  conv_lhs => unfold parseStrBody
                  simp [ih]
                · rw [if_neg h7]
                  by_cases h8 : c.toNat < 32
                  · rw [if_pos h8]
                    rw [show (['\\', 'u', '0', '0', hexDigit (c.toNat / 16),
                        hexDigit (c.toNat % 16)] : List Char) ++
                        (escapeChars cs' ++ '"' :: rest) =
                      '\\' :: 'u' :: '0' :: '0' :: hexDigit (c.toNat / 16) ::
                        hexDigit (c.toNat % 16) ::
                        (escapeChars cs' ++ '"' :: rest) from rfl]
                    rw [parseStrBody_u_escape c.toNat h8, ih]
                    simp [Char.ofNat_toNat]
                  · rw [if_neg h8]
                    rw [show ([c] : List Char) ++ (escapeChars cs' ++ '"' :: rest) =
                      c :: (escapeChars cs' ++ '"' :: rest) from rfl]
                    conv_lhs => unfold parseStrBody
                    simp [h1, h2, h8, ih]

theorem string_mk_data (s : String) : String.mk s.data = s := by
  cases s
  rfl

theorem skipWs_ws_append (pre x : List Char) (h : ∀ c ∈ pre, isJsonWs c = true) :
    skipWs (pre ++ x) = skipWs x := by
  unfold skipWs
  rw [List.dropWhile_append_of_pos h]

theorem skipWs_cons_not_ws (c : Char) (x : List Char) (h : isJsonWs c = false) :
    skipWs (c :: x) = c :: x := by
  unfold skipWs
  rw [List.dropWhile_cons_of_neg (by simp [h])]

theorem indentChars_ws (level : Nat) : ∀ c ∈ indentChars level, isJsonWs c = true := by
  intro c hc
  unfold indentChars at hc
  rw [List.eq_of_mem_replicate hc]
  rfl

theorem nl_indent_ws (level : Nat) : ∀ c ∈ '\n' :: indentChars level, isJsonWs c = true := by
  intro c hc
  rcases List.mem_cons.mp hc with h | h
  · rw [h]
    rfl
  · exact indentChars_ws level c h

theorem parseValue_ws (fuel : Nat) (pre x : List Char)
    (h : ∀ c ∈ pre, isJsonWs c = true) :
    parseValue (fuel + 1) (pre ++ x) = parseValue (fuel + 1) x := by
  have hs := skipWs_ws_append pre x h
  unfold parseValue
  rw [hs]

theorem jfuel_pos (j : Json) : 1 ≤ jfuel j := by
  cases j with
  | null => simp [jfuel]
  | bool b => simp [jfuel]
  | num l => simp [jfuel]
  | str s => simp [jfuel]
  | arr l =>
    cases l with
    | nil => simp [jfuel]
    | cons a r =>
      simp only [jfuel]
      omega
  | obj l =>
    cases l with
    | nil => simp [jfuel]
    | cons a r =>
      simp only [jfuel]
      omega

theorem stringifyVal_head (j : Json) (level : Nat) (hg : goodJson j = true) :
    ∃ c t, stringifyVal level j = c :: t ∧ isJsonWs c = false ∧
      c ≠ ']' ∧ c ≠ '\x7d' := by
  cases j with
  | null => simp [goodJson] at hg
  | bool b => simp [goodJson] at hg
  | num l => simp [goodJson] at hg
  | str s =>
    refine ⟨'"', escapeChars s.data ++ ['"'], ?_, by decide, by decide, by decide⟩
    simp [stringifyVal, quoteChars]
  | arr l =>
    cases l with
    | nil =>
      refine ⟨'[', [']'], ?_, by decide, by decide, by decide⟩
      simp [stringifyVal]
    | cons a r =>
      refine ⟨'[', stringifyItems (level + 1) a r ++
        ('\n' :: (indentChars level ++ [']'])), ?_, by decide, by decide, by decide⟩
      simp [stringifyVal]
  | obj l =>
    cases l with
    | nil =>
      refine ⟨'\x7b', ['\x7d'], ?_, by decide, by decide, by decide⟩
      simp [stringifyVal]
    | cons a r =>
      refine ⟨'\x7b', stringifyFields (level + 1) a r ++
        ('\n' :: (indentChars level ++ ['\x7d'])), ?_, by decide, by decide, by decide⟩
      simp [stringifyVal]

theorem skipWs_items_head (lv : Nat) (j : Json) (js : List Json) (X : List Char)
    (hg : goodJson j = true) :
    ∃ c t, skipWs (stringifyItems lv j js ++ X) = c :: t ∧ c ≠ ']' ∧ c ≠ '\x7d' := by
  obtain ⟨c, t, hc, hws, hne1, hne2⟩ := stringifyVal_head j lv hg
  cases js with
  | nil =>
    refine ⟨c, t ++ X, ?_, hne1, hne2⟩
    simp only [stringifyItems, List.cons_append, List.append_assoc]
    rw [show ('\n' :: (indentChars lv ++ (stringifyVal lv j ++ X))) =
      ('\n' :: indentChars lv) ++ (stringifyVal lv j ++ X) by simp]
    rw [skipWs_ws_append _ _ (nl_indent_ws lv), hc, List.cons_append,
      skipWs_cons_not_ws _ _ hws]
  | cons j2 js' =>
    refine ⟨c, t ++ (',' :: (stringifyItems lv j2 js' ++ X)), ?_, hne1, hne2⟩
    simp only [stringifyItems, List.cons_append, List.append_assoc]
    rw [show ('\n' :: (indentChars lv ++ (stringifyVal lv j ++
        (',' :: (stringifyItems lv j2 js' ++ X))))) =
      ('\n' :: indentChars lv) ++ (stringifyVal lv j ++
        (',' :: (stringifyItems lv j2 js' ++ X))) by simp]
    rw [skipWs_ws_append _ _ (nl_indent_ws lv), hc, List.cons_append,
      skipWs_cons_not_ws _ _ hws]

theorem skipWs_fields_head (lv : Nat) (f : String × Json) (fs : List (String × Json))
    (X : List Char) :
    ∃ t, skipWs (stringifyFields lv f fs ++ X) = '"' :: t := by
  cases fs with
  | nil =>
    refine ⟨escapeChars f.1.data ++ ('"' :: (':' :: ' ' :: (stringifyVal lv f.2 ++ X))), ?_⟩
    simp only [stringifyFields, quoteChars, List.cons_append, List.append_assoc, List.nil_append]
    rw [show ('\n' :: (indentChars lv ++ ('"' :: (escapeChars f.1.data ++
        ('"' :: (':' :: ' ' :: (stringifyVal lv f.2 ++ X))))))) =
      ('\n' :: indentChars lv) ++ ('"' :: (escapeChars f.1.data ++
        ('"' :: (':' :: ' ' :: (stringifyVal lv f.2 ++ X))))) by simp]
    rw [skipWs_ws_append _ _ (nl_indent_ws lv), skipWs_cons_not_ws _ _ (by decide)]
  | cons f2 fs' =>
    refine ⟨escapeChars f.1.data ++ ('"' :: (':' :: ' ' :: (stringifyVal lv f.2 ++
      (',' :: (stringifyFields lv f2 fs' ++ X))))), ?_⟩
    simp only [stringifyFields, quoteChars, List.cons_append, List.append_assoc, List.nil_append]
    rw [show ('\n' :: (indentChars lv ++ ('"' :: (escapeChars f.1.data ++
        ('"' :: (':' :: ' ' :: (stringifyVal lv f.2 ++
          (',' :: (stringifyFields lv f2 fs' ++ X))))))))) =
      ('\n' :: indentChars lv) ++ ('"' :: (escapeChars f.1.data ++
        ('"' :: (':' :: ' ' :: (stringifyVal lv f.2 ++
          (',' :: (stringifyFields lv f2 fs' ++ X))))))) by simp]
    rw [skipWs_ws_append _ _ (nl_indent_ws lv), skipWs_cons_not_ws _ _ (by decide)]

/-- Printing a good JSON value and reparsing it with enough fuel returns the
value exactly, at every indentation level and with any trailing input. -/
theorem parse_print_main (fuel : Nat) :
    (∀ j level rest, goodJson j = true → jfuel j ≤ fuel →
      parseValue fuel (stringifyVal level j ++ rest) = some (j, rest)) ∧
    (∀ j js level clevel acc rest, goodJson j = true → goodList js = true →
      jfuelItems j js ≤ fuel →
      parseElems fuel
        (stringifyItems level j js ++
          ('\n' :: (indentChars clevel ++ (']' :: rest)))) acc =
        some (.arr (acc ++ j :: js), rest)) ∧
    (∀ k v fs level clevel acc rest, goodJson v = true → goodFields fs = true →
      jfuelFields (k, v) fs ≤ fuel →
      parseFields fuel
        (stringifyFields level (k, v) fs ++
          ('\n' :: (indentChars clevel ++ ('\x7d' :: rest)))) acc =
        some (.obj (acc ++ (k, v) :: fs), rest)) := by
  induction fuel with
  | zero =>
    refine ⟨?_, ?_, ?_⟩
    · intro j level rest hg hf
      have := jfuel_pos j
      omega
    · intro j js level clevel acc rest hg hgs hf
      cases js <;> simp only [jfuelItems] at hf <;> omega
    · intro k v fs level clevel acc rest hg hgs hf
      cases fs <;> simp only [jfuelFields] at hf <;> omega
  | succ f2 ih =>
    refine ⟨?_, ?_, ?_⟩
    · intro j level rest hg hf
      cases j with
      | null => simp [goodJson] at hg
      | bool b => simp [goodJson] at hg
      | num l => simp [goodJson] at hg
      | str s =>
        simp only [stringifyVal, quoteChars, List.cons_append, List.append_assoc,
          List.nil_append]
        conv_lhs => unfold parseValue
        rw [skipWs_cons_not_ws _ _ (by decide)]
        simp [parseStrBody_escape, string_mk_data]
      | arr l =>
        cases l with
        | nil =>
          simp only [stringifyVal, List.cons_append, List.nil_append]
          conv_lhs => unfold parseValue
          rw [skipWs_cons_not_ws _ _ (by decide)]
          simp [skipWs_cons_not_ws, isJsonWs]
        | cons j1 js =>
          have hgj : goodJson j1 = true ∧ goodList js = true := by
            simp only [goodJson, goodList, Bool.and_eq_true] at hg
            exact hg
          have hfi : jfuelItems j1 js ≤ f2 := by
            simp only [jfuel] at hf
            omega
          simp only [stringifyVal, List.cons_append, List.append_assoc,
            List.nil_append]
          conv_lhs => unfold parseValue
          rw [skipWs_cons_not_ws _ _ (by decide)]
          obtain ⟨c2, t2, hsk, hne, _⟩ := skipWs_items_head (level + 1) j1 js
            ('\n' :: (indentChars level ++ (']' :: rest))) hgj.1
          have hrec := ih.2.1 j1 js (level + 1) level [] rest hgj.1 hgj.2 hfi
          simp [hsk, hne, hrec]
      | obj l =>
        cases l with
        | nil =>
          simp only [stringifyVal, List.cons_append, List.nil_append]
          conv_lhs => unfold parseValue
          rw [skipWs_cons_not_ws _ _ (by decide)]
          simp [skipWs_cons_not_ws, isJsonWs]
        | cons f1 fs =>
          obtain ⟨k, v⟩ := f1
          have hgj : goodJson v = true ∧ goodFields fs = true := by
            simp only [goodJson, goodFields, Bool.and_eq_true] at hg
            exact hg
          have hfi : jfuelFields (k, v) fs ≤ f2 := by
            simp only [jfuel] at hf
            omega
          simp only [stringifyVal, List.cons_append, List.append_assoc,
            List.nil_append]
          conv_lhs => unfold parseValue
          rw [skipWs_cons_not_ws _ _ (by decide)]
          obtain ⟨t2, hsk⟩ := skipWs_fields_head (level + 1) (k, v) fs
            ('\n' :: (indentChars level ++ ('\x7d' :: rest)))
          have hrec := ih.2.2 k v fs (level + 1) level [] rest hgj.1 hgj.2 hfi
          simp [hsk, hrec]
    · intro j js level clevel acc rest hg hgs hf
      have hfj : jfuel j ≤ f2 := by
        cases js <;> simp only [jfuelItems] at hf <;> omega
      obtain ⟨f3, rfl⟩ : ∃ f3, f2 = f3 + 1 := by
        have := jfuel_pos j
        cases f2 with
        | zero => omega
        | succ f => exact ⟨f, rfl⟩
      cases js with
      | nil =>
        simp only [stringifyItems, List.cons_append, List.append_assoc,
          List.nil_append]
        conv_lhs => unfold parseElems
        rw [show ('\n' :: (indentChars level ++ (stringifyVal level j ++
            ('\n' :: (indentChars clevel ++ (']' :: rest)))))) =
          ('\n' :: indentChars level) ++ (stringifyVal level j ++
            ('\n' :: (indentChars clevel ++ (']' :: rest)))) by simp]
        rw [parseValue_ws f3 _ _ (nl_indent_ws level)]
        rw [ih.1 j level ('\n' :: (indentChars clevel ++ (']' :: rest))) hg hfj]
        have hsk : skipWs ('\n' :: (indentChars clevel ++ (']' :: rest))) =
            ']' :: rest := by
          rw [show ('\n' :: (indentChars clevel ++ (']' :: rest))) =
            ('\n' :: indentChars clevel) ++ (']' :: rest) by simp]
          rw [skipWs_ws_append _ _ (nl_indent_ws clevel),
            skipWs_cons_not_ws _ _ (by decide)]
        simp [hsk]
      | cons j2 js' =>
        have hg2 : goodJson j2 = true ∧ goodList js' = true := by
          simp only [goodList, Bool.and_eq_true] at hgs
          exact hgs
        have hfi2 : jfuelItems j2 js' ≤ f3 + 1 := by
          simp only [jfuelItems] at hf
          have := jfuel_pos j
          omega
        simp only [stringifyItems, List.cons_append, List.append_assoc,
          List.nil_append]
        conv_lhs => unfold parseElems
        rw [show ('\n' :: (indentChars level ++ (stringifyVal level j ++
            (',' :: (stringifyItems level j2 js' ++
              ('\n' :: (indentChars clevel ++ (']' :: rest)))))))) =
          ('\n' :: indentChars level) ++ (stringifyVal level j ++
            (',' :: (stringifyItems level j2 js' ++
              ('\n' :: (indentChars clevel ++ (']' :: rest)))))) by simp]
        rw [parseValue_ws f3 _ _ (nl_indent_ws level)]
        rw [ih.1 j level (',' :: (stringifyItems level j2 js' ++
          ('\n' :: (indentChars clevel ++ (']' :: rest))))) hg hfj]
        have hsk1 : skipWs (',' :: (stringifyItems level j2 js' ++
            ('\n' :: (indentChars clevel ++ (']' :: rest))))) =
          ',' :: (stringifyItems level j2 js' ++
            ('\n' :: (indentChars clevel ++ (']' :: rest)))) :=
          skipWs_cons_not_ws _ _ (by decide)
        have hrec := ih.2.1 j2 js' level clevel (acc ++ [j]) rest
          hg2.1 hg2.2 hfi2
        simp [hsk1, hrec]
    · intro k v fs level clevel acc rest hg hgs hf
      have hfj : jfuel v ≤ f2 := by
        cases fs <;> simp only [jfuelFields] at hf <;> omega
      obtain ⟨f3, rfl⟩ : ∃ f3, f2 = f3 + 1 := by
        have := jfuel_pos v
        cases f2 with
        | zero => omega
        | succ f => exact ⟨f, rfl⟩
      cases fs with
      | nil =>
        simp only [stringifyFields, quoteChars, List.cons_append,
          List.append_assoc, List.nil_append]
        conv_lhs => unfold parseFields
        rw [show ('\n' :: (indentChars level ++ ('"' :: (escapeChars k.data ++
            ('"' :: (':' :: ' ' :: (stringifyVal level v ++
              ('\n' :: (indentChars clevel ++ ('\x7d' :: rest)))))))))) =
          ('\n' :: indentChars level) ++ ('"' :: (escapeChars k.data ++
            ('"' :: (':' :: ' ' :: (stringifyVal level v ++
              ('\n' :: (indentChars clevel ++ ('\x7d' :: rest)))))))) by simp]
        rw [skipWs_ws_append _ _ (nl_indent_ws level),
          skipWs_cons_not_ws _ _ (by decide)]
        have hbody := parseStrBody_escape k.data
          (':' :: ' ' :: (stringifyVal level v ++
            ('\n' :: (indentChars clevel ++ ('\x7d' :: rest)))))
        have hsk2 : skipWs (':' :: ' ' :: (stringifyVal level v ++
            ('\n' :: (indentChars clevel ++ ('\x7d' :: rest))))) =
          ':' :: ' ' :: (stringifyVal level v ++
            ('\n' :: (indentChars clevel ++ ('\x7d' :: rest)))) :=
          skipWs_cons_not_ws _ _ (by decide)
        have hval : parseValue (f3 + 1) (' ' :: (stringifyVal level v ++
            ('\n' :: (indentChars clevel ++ ('\x7d' :: rest))))) =
          some (v, '\n' :: (indentChars clevel ++ ('\x7d' :: rest))) := by
          rw [show (' ' :: (stringifyVal level v ++
              ('\n' :: (indentChars clevel ++ ('\x7d' :: rest))))) =
            ([' '] ++ (stringifyVal level v ++
              ('\n' :: (indentChars clevel ++ ('\x7d' :: rest))))) from rfl]
          rw [parseValue_ws f3 _ _ (by decide)]
          exact ih.1 v level ('\n' :: (indentChars clevel ++ ('\x7d' :: rest)))
            hg hfj
        have hsk4 : skipWs ('\n' :: (indentChars clevel ++ ('\x7d' :: rest))) =
            '\x7d' :: rest := by
          rw [show ('\n' :: (indentChars clevel ++ ('\x7d' :: rest))) =
            ('\n' :: indentChars clevel) ++ ('\x7d' :: rest) by simp]
          rw [skipWs_ws_append _ _ (nl_indent_ws clevel),
            skipWs_cons_not_ws _ _ (by decide)]
        simp [hbody, hsk2, hval, hsk4, string_mk_data]
      | cons f2b fs' =>
        obtain ⟨k2, v2⟩ := f2b
        have hg2 : goodJson v2 = true ∧ goodFields fs' = true := by
          simp only [goodFields, Bool.and_eq_true] at hgs
          exact hgs
        have hfi2 : jfuelFields (k2, v2) fs' ≤ f3 + 1 := by
          simp only [jfuelFields] at hf
          have := jfuel_pos v
          omega
        simp only [stringifyFields, quoteChars, List.cons_append,
          List.append_assoc, List.nil_append]
        conv_lhs => unfold parseFields
        rw [show ('\n' :: (indentChars level ++ ('"' :: (escapeChars k.data ++
            ('"' :: (':' :: ' ' :: (stringifyVal level v ++
              (',' :: (stringifyFields level (k2, v2) fs' ++
                ('\n' :: (indentChars clevel ++ ('\x7d' :: rest)))))))))))) =
          ('\n' :: indentChars level) ++ ('"' :: (escapeChars k.data ++
            ('"' :: (':' :: ' ' :: (stringifyVal level v ++
              (',' :: (stringifyFields level (k2, v2) fs' ++
                ('\n' :: (indentChars clevel ++ ('\x7d' :: rest)))))))))) by
          simp]
        rw [skipWs_ws_append _ _ (nl_indent_ws level),
          skipWs_cons_not_ws _ _ (by decide)]
        have hbody := parseStrBody_escape k.data
          (':' :: ' ' :: (stringifyVal level v ++
            (',' :: (stringifyFields level (k2, v2) fs' ++
              ('\n' :: (indentChars clevel ++ ('\x7d' :: rest)))))))
        have hsk2 : skipWs (':' :: ' ' :: (stringifyVal level v ++
            (',' :: (stringifyFields level (k2, v2) fs' ++
              ('\n' :: (indentChars clevel ++ ('\x7d' :: rest))))))) =
          ':' :: ' ' :: (stringifyVal level v ++
            (',' :: (stringifyFields level (k2, v2) fs' ++
              ('\n' :: (indentChars clevel ++ ('\x7d' :: rest)))))) :=
          skipWs_cons_not_ws _ _ (by decide)
        have hval : parseValue (f3 + 1) (' ' :: (stringifyVal level v ++
            (',' :: (stringifyFields level (k2, v2) fs' ++
              ('\n' :: (indentChars clevel ++ ('\x7d' :: rest))))))) =
          some (v, ',' :: (stringifyFields level (k2, v2) fs' ++
            ('\n' :: (indentChars clevel ++ ('\x7d' :: rest))))) := by
          rw [show (' ' :: (stringifyVal level v ++
              (',' :: (stringifyFields level (k2, v2) fs' ++
                ('\n' :: (indentChars clevel ++ ('\x7d' :: rest))))))) =
            ([' '] ++ (stringifyVal level v ++
              (',' :: (stringifyFields level (k2, v2) fs' ++
                ('\n' :: (indentChars clevel ++ ('\x7d' :: rest))))))) from
              rfl]
          rw [parseValue_ws f3 _ _ (by decide)]
          exact ih.1 v level (',' :: (stringifyFields level (k2, v2) fs' ++
            ('\n' :: (indentChars clevel ++ ('\x7d' :: rest))))) hg hfj
        have hsk3 : skipWs (',' :: (stringifyFields level (k2, v2) fs' ++
            ('\n' :: (indentChars clevel ++ ('\x7d' :: rest))))) =
          ',' :: (stringifyFields level (k2, v2) fs' ++
            ('\n' :: (indentChars clevel ++ ('\x7d' :: rest)))) :=
          skipWs_cons_not_ws _ _ (by decide)
        have hrec := ih.2.2 k2 v2 fs' level clevel
          (acc ++ [(String.mk k.data, v)]) rest hg2.1 hg2.2 hfi2
        simp [hbody, hsk2, hval, hsk3, hrec, string_mk_data]

theorem json_sizeOf_pos (j : Json) : 1 ≤ sizeOf j := by
  cases j <;> simp <;> omega

/-- The fuel needed to parse a good value is at most the length of its
printed form. -/
theorem jfuel_le_len_main (n : Nat) :
    (∀ j, sizeOf j ≤ n → goodJson j = true → ∀ level,
      jfuel j ≤ (stringifyVal level j).length) ∧
    (∀ j js, sizeOf j + sizeOf js ≤ n → goodJson j = true →
      goodList js = true → ∀ level,
      jfuelItems j js ≤ (stringifyItems level j js).length) ∧
    (∀ k v fs, sizeOf v + sizeOf fs ≤ n → goodJson v = true →
      goodFields fs = true → ∀ level,
      jfuelFields (k, v) fs ≤ (stringifyFields level (k, v) fs).length) := by
  induction n with
  | zero =>
    refine ⟨?_, ?_, ?_⟩
    · intro j hsz
      have := json_sizeOf_pos j
      omega
    · intro j js hsz
      have := json_sizeOf_pos j
      omega
    · intro k v fs hsz
      have := json_sizeOf_pos v
      omega
  | succ n ih =>
    refine ⟨?_, ?_, ?_⟩
    · intro j hsz hg level
      cases j with
      | null => simp [goodJson] at hg
      | bool b => simp [goodJson] at hg
      | num l => simp [goodJson] at hg
      | str s =>
        simp [jfuel, stringifyVal, quoteChars]
      | arr l =>
        cases l with
        | nil => simp [jfuel, stringifyVal]
        | cons j1 js =>
          have hgj : goodJson j1 = true ∧ goodList js = true := by
            simp only [goodJson, goodList, Bool.and_eq_true] at hg
            exact hg
          have hb : sizeOf j1 + sizeOf js ≤ n := by
            simp at hsz
            omega
          have hI := ih.2.1 j1 js hb hgj.1 hgj.2 (level + 1)
          simp [jfuel, stringifyVal]
          omega
      | obj l =>
        cases l with
        | nil => simp [jfuel, stringifyVal]
        | cons f1 fs =>
          obtain ⟨k, v⟩ := f1
          have hgj : goodJson v = true ∧ goodFields fs = true := by
            simp only [goodJson, goodFields, Bool.and_eq_true] at hg
            exact hg
          have hb : sizeOf v + sizeOf fs ≤ n := by
            simp at hsz
            omega
          have hI := ih.2.2 k v fs hb hgj.1 hgj.2 (level + 1)
          simp [jfuel, stringifyVal]
          omega
    · intro j js hsz hg hgs level
      cases js with
      | nil =>
        have hb : sizeOf j ≤ n := by
          simp at hsz
          omega
        have hI := ih.1 j hb hg level
        simp [jfuelItems, stringifyItems]
        omega
      | cons j2 js' =>
        have hg2 : goodJson j2 = true ∧ goodList js' = true := by
          simp only [goodList, Bool.and_eq_true] at hgs
          exact hgs
        have hb1 : sizeOf j ≤ n := by
          have := json_sizeOf_pos j2
          simp at hsz
          omega
        have hb2 : sizeOf j2 + sizeOf js' ≤ n := by
          have := json_sizeOf_pos j
          simp at hsz
          omega
        have hI1 := ih.1 j hb1 hg level
        have hI2 := ih.2.1 j2 js' hb2 hg2.1 hg2.2 level
        simp [jfuelItems, stringifyItems]
        omega
    · intro k v fs hsz hg hgs level
      cases fs with
      | nil =>
        have hb : sizeOf v ≤ n := by
          simp at hsz
          omega
        have hI := ih.1 v hb hg level
        simp [jfuelFields, stringifyFields, quoteChars]
        omega
      | cons f2 fs' =>
        obtain ⟨k2, v2⟩ := f2
        have hg2 : goodJson v2 = true ∧ goodFields fs' = true := by
          simp only [goodFields, Bool.and_eq_true] at hgs
          exact hgs
        have hb1 : sizeOf v ≤ n := by
          simp at hsz
          omega
        have hb2 : sizeOf v2 + sizeOf fs' ≤ n := by
          have := json_sizeOf_pos v
          simp at hsz
          omega
        have hI1 := ih.1 v hb1 hg level
        have hI2 := ih.2.2 k2 v2 fs' hb2 hg2.1 hg2.2 level
        simp [jfuelFields, stringifyFields, quoteChars]
        omega

theorem jfuel_le_stringify (j : Json) (hg : goodJson j = true) (level : Nat) :
    jfuel j ≤ (stringifyVal level j).length :=
  (jfuel_le_len_main (sizeOf j)).1 j (le_refl _) hg level

/-- Parsing the pretty-printed form of a good JSON value returns the value
exactly, including the full-consumption check of `Json.parse`. -/
theorem jsonParse_stringify (j : Json) (hg : goodJson j = true) :
    Json.parse (jsonStringify j) = some j := by
  have hfuel : jfuel j ≤ (stringifyVal 0 j).length + 1 :=
    le_trans (jfuel_le_stringify j hg 0) (Nat.le_succ _)
  have hp := (parse_print_main ((stringifyVal 0 j).length + 1)).1 j 0 [] hg hfuel
  rw [List.append_nil] at hp
  show (match parseValue ((stringifyVal 0 j).length + 1) (stringifyVal 0 j) with
    | some (j, rest) => if (skipWs rest).isEmpty then some j else none
    | none => none) = some j
  rw [hp]
  rfl

/-- The JSON fields contributed by an optional string property: JavaScript
`JSON.stringify` drops a property whose value is `undefined`. -/
def optStrField (k : String) : Option String → List (String × Json)
  | none => []
  | some s => [(k, .str s)]

/-- The JSON value `JSON.stringify` sees for a `Column`
(`mapping.ts` line 4). -/
def columnToJson (c : Column) : Json :=
  .obj [("name", .str c.name), ("data_type", .str c.data_type),
    ("key", .str c.key)]

/-- The JSON value `JSON.stringify` sees for a `Table` (`mapping.ts` line 5):
absent optional properties are dropped. -/
def tableToJson (t : Table) : Json :=
  .obj ([("name", .str t.name)] ++ optStrField "comment" t.comment ++
    [("columns", .arr (t.columns.map columnToJson))] ++
    optStrField "llm_category" t.llm_category ++
    optStrField "llm_description" t.llm_description)

mutual

/-- The JSON value `JSON.stringify` sees for a `PathNode`
(`mapping.ts` lines 7-14): `children`, `tableName` and `description` are
dropped when absent, and children order is preserved in the array. -/
def pathNodeToJson : PathNode → Json
  | .mk n pa ty cs tn d =>
    .obj ([("name", .str n), ("path", .str pa), ("type", .str ty)] ++
      pathNodeChildrenFields cs ++ optStrField "tableName" tn ++
      optStrField "description" d)

def pathNodeChildrenFields : Option (List PathNode) → List (String × Json)
  | none => []
  | some l => [("children", .arr (pathNodeListToJson l))]

def pathNodeListToJson : List PathNode → List Json
  | [] => []
  | c :: cs => pathNodeToJson c :: pathNodeListToJson cs

end

def rootField : Option PathNode → List (String × Json)
  | none => []
  | some r => [("root", pathNodeToJson r)]

/-- The JSON value `JSON.stringify` sees for a whole `VirtualTree`
(`mapping.ts` lines 16-21): `categories` and `tables` keep the insertion
order of their keys, and `root` is dropped when absent. -/
def treeToJson (T : VirtualTree) : Json :=
  .obj ([("database", .str T.database),
    ("categories",
      .obj (T.categories.map (fun p => (p.1, Json.arr (p.2.map tableToJson))))),
    ("tables", .obj (T.tables.map (fun p => (p.1, tableToJson p.2))))] ++
    rootField T.root)

/-- `saveSchemaToCache` (`mcp-server.ts` line 99): the cache file content is
`JSON.stringify(this.tree, null, 2)`. -/
def saveSchemaToCache (T : VirtualTree) : String :=
  jsonStringify (treeToJson T)

/-- The cache-load step of `ensureTree` (`mcp-server.ts` line 114):
`JSON.parse` of the cache file content. -/
def loadSchemaFromCache (s : String) : Option Json :=
  Json.parse s

theorem goodFields_append (xs ys : List (String × Json)) :
    goodFields (xs ++ ys) = (goodFields xs && goodFields ys) := by
  induction xs with
  | nil => simp [goodFields]
  | cons f fs ih => simp [goodFields, ih, Bool.and_assoc]

theorem good_optStrField (k : String) (o : Option String) :
    goodFields (optStrField k o) = true := by
  cases o <;> simp [optStrField, goodFields, goodJson]

theorem good_columnToJson (c : Column) : goodJson (columnToJson c) = true := by
  simp [columnToJson, goodJson, goodFields]

theorem goodList_map_column (l : List Column) :
    goodList (l.map columnToJson) = true := by
  induction l with
  | nil => simp [goodList]
  | cons c cs ih => simp [goodList, good_columnToJson, ih]

theorem good_tableToJson (t : Table) : goodJson (tableToJson t) = true := by
  simp [tableToJson, goodJson, goodFields_append, goodFields, good_optStrField,
    goodList_map_column]

mutual

theorem good_pathNodeToJson (p : PathNode) :
    goodJson (pathNodeToJson p) = true := by
  cases p with
  | mk n pa ty cs tn d =>
    simp [pathNodeToJson, goodJson, goodFields_append, goodFields,
      good_optStrField, good_pathNodeChildrenFields cs]

theorem good_pathNodeChildrenFields (cs : Option (List PathNode)) :
    goodFields (pathNodeChildrenFields cs) = true := by
  cases cs with
  | none => simp [pathNodeChildrenFields, goodFields]
  | some l =>
    simp [pathNodeChildrenFields, goodFields, goodJson,
      good_pathNodeListToJson l]

theorem good_pathNodeListToJson (l : List PathNode) :
    goodList (pathNodeListToJson l) = true := by
  cases l with
  | nil => simp [pathNodeListToJson, goodList]
  | cons c cs =>
    simp [pathNodeListToJson, goodList, good_pathNodeToJson c,
      good_pathNodeListToJson cs]

end

theorem good_rootField (o : Option PathNode) :
    goodFields (rootField o) = true := by
  cases o <;> simp [rootField, goodFields, good_pathNodeToJson]

theorem goodList_map_table (l : List Table) :
    goodList (l.map tableToJson) = true := by
  induction l with
  | nil => simp [goodList]
  | cons t ts ih => simp [goodList, good_tableToJson, ih]

theorem good_categories (l : List (String × List Table)) :
    goodFields (l.map (fun p => (p.1, Json.arr (p.2.map tableToJson)))) =
      true := by
  induction l with
  | nil => simp [goodFields]
  | cons p ps ih => simp [goodFields, goodJson, goodList_map_table, ih]

theorem good_tables (l : List (String × Table)) :
    goodFields (l.map (fun p => (p.1, tableToJson p.2))) = true := by
  induction l with
  | nil => simp [goodFields]
  | cons p ps ih => simp [goodFields, good_tableToJson, ih]

theorem good_treeToJson (T : VirtualTree) :
    goodJson (treeToJson T) = true := by
  simp [treeToJson, goodJson, goodFields_append, goodFields, good_categories,
    good_tables, good_rootField]

/-- C7: for every `VirtualTree` T, serializing T to the cache-file string
with `saveSchemaToCache` (`JSON.stringify(tree, null, 2)`) and loading it
back with `JSON.parse` succeeds and reproduces exactly the JSON value of T:
the same `database`, `categories`, `tables` and `root` structure, with the
order of every directory's children array preserved. -/
theorem c7_cache_roundtrip (T : VirtualTree) :
    loadSchemaFromCache (saveSchemaToCache T) = some (treeToJson T) := by
  unfold loadSchemaFromCache saveSchemaToCache
  exact jsonParse_stringify (treeToJson T) (good_treeToJson T)
